import Mathlib

/-!
# gojpegstream: the decode pipeline of `stream.go`

A shallow embedding of `stream.go`.  Every goroutine of the program is a
sequential process that talks to the others only through channels, so each
stage is embedded as a function from the sequence of values it receives to
the sequence of actions it performs (its trace):

* `readStdin`            : the path list read from standard input;
* `singleThreadReader`   : the handles put on `ch`, and whether `ch` is closed;
* `singleThreadDecoder`,
  `multiThreadDecoder`   : the actions of the decoder on the handles of `ch`,
                           run against the loop of `main` that receives on `chw`;
* `pipeline`             : the reader, the decoder `main` selects and that loop;
* `sink`                 : what the loop of `main` writes for the frames it
                           receives.

`log.Fatal` ends the whole process.  A run that ends in `log.Fatal` keeps the
trace of the actions the stage performed before that call.  Where the call is
made by another goroutine (a decode task of a batch, the reader), the trace
is the longest one the stage can reach before it waits forever; the process
may end earlier.

`chw` has no buffer and `main` is its only receiver, so the decoders depend
on the loop of `main`: a send is over when `main` has received the frame,
and with output writing on `main` then panics on a frame that is not a
`*image.YCbCr`, which ends the process.  A decoder run that ends so has the
outcome `panic`; its trace ends with the send of that frame, the last one
`main` receives.  What the decoder still does while the process goes down
is not recorded: no later send is received.

`totalSize` is an `int64`: additions wrap around (`wrap64`).

The capacities of the channels (200 handles on `ch`, none on `chw`) bound
how far a producer runs ahead of its consumer; they do not change what is
sent, and are not part of the embedding.

The outer loop of `multiThreadDecoder` and the loop of `readStdin` run on a
step budget (`fuel`); the theorems show which budget is enough, and that no
budget is for a negative thread count.
-/

namespace GoJpegStream

/-! ## Data model -/

/-- One byte of a Go `string` or `[]byte`. -/
abbrev Byte := UInt8

/-- The value `jpeg.Decode` returns: an `image.Image`, which is either a
`*image.YCbCr` with its three planes or an image of another concrete type
(`*image.Gray`, `*image.CMYK`). -/
inductive Image where
  | ycbcr (Y Cb Cr : List Byte)
  | other (kind : Nat)
deriving DecidableEq, Repr

/-- Whether the type assertion `img.(*image.YCbCr)` holds. -/
def isYCbCr : Image → Bool
  | Image.ycbcr _ _ _ => true
  | Image.other _ => false

/-- Whether the loop of `main` panics on a frame it receives: output writing
is on (lines 152-155) and the frame is not a `*image.YCbCr`. -/
def rejects (nowrite : Bool) (img : Image) : Bool := !nowrite && !isYCbCr img

/-- An open `*os.File`: `id` tells handles apart, `size` is what `f.Stat()`
gives (`none` for an error, otherwise `stat.Size()`), `image` is what
`jpeg.Decode(f)` gives (`none` for an error). -/
structure File where
  id : Nat
  size : Option Int
  image : Option Image
deriving DecidableEq, Repr

/-- What `os.Open` finds at a path: the stat and decode results of the file
opened. -/
structure FileData where
  size : Option Int
  image : Option Image
deriving DecidableEq, Repr

/-- The file system: `os.Open(path)`; `none` is an error. -/
abbrev FS := List Byte → Option FileData

/-- The actions of a decoder, in program order: a handle received from
`ch`, a frame sent on `chw` and received by `main`, a handle closed, and
`close(chw)`. -/
inductive Event where
  | draw (f : File)
  | send (img : Image)
  | closeFile (f : File)
  | closeChw
deriving DecidableEq, Repr

/-- How a stage ends: `done` it returned, `fatal` it called `log.Fatal`,
`panic` the loop of `main` panicked on the frame it last sent, `blocked` it
waits forever on a channel that is empty and never closed, `outOfFuel` it
was still running when the step budget ran out. -/
inductive Outcome where
  | done
  | fatal
  | panic
  | blocked
  | outOfFuel
deriving DecidableEq, Repr

/-- The state of a decoder: the handles `ch` still holds, the trace so far,
the accumulator `*totalSize`, and the batches formed so far, each with the
value of `needsClose` at the end of its collecting loop. -/
structure State where
  ch : List File
  trace : List Event
  totalSize : Int
  batches : List (List File × Bool)
deriving DecidableEq, Repr

/-- A finished run of a decoder. -/
structure Run where
  state : State
  outcome : Outcome
deriving DecidableEq, Repr

/-- The `int64` value (two complement, 64 bits) of an integer. -/
def wrap64 (x : Int) : Int := (x + 2 ^ 63) % 2 ^ 64 - 2 ^ 63

/-- The initial decoder state of `main`: `var totalSize int64`. -/
def State.init (hs : List File) : State := ⟨hs, [], 0, []⟩

/-! ## readStdin -/

/-- The call `r.ReadString(delim)` on the unread input: the bytes up to and
including the first `delim`, whether the end of input was hit first
(`err == io.EOF`), and the input left. -/
def ReadString (delim : Byte) : List Byte → List Byte × Bool × List Byte
  | [] => ([], true, [])
  | b :: bs =>
    if b = delim then ([b], false, bs)
    else
      let r := ReadString delim bs
      (b :: r.1, r.2.1, r.2.2)

/-- The loop of `readStdin` with a step budget; `none` when the budget is
used up. -/
def readStdinLoop : Nat → List Byte → List (List Byte) → Option (List (List Byte))
  | 0, _, _ => none
  | fuel + 1, input, lines =>
    let r := ReadString 10 input
    if r.2.1 then some lines
    else readStdinLoop fuel r.2.2 (lines ++ [r.1.take (r.1.length - 1)])

/-- The function `readStdin`: every call of `ReadString` that succeeds reads
a byte, so one step more than the input has bytes is enough. -/
def readStdin (input : List Byte) : Option (List (List Byte)) :=
  readStdinLoop (input.length + 1) input []

/-! ## singleThreadReader -/

/-- The loop of `singleThreadReader` from handle number `n` on: the handles
sent on `ch`, and whether the loop ended (then `ch` is closed) or called
`log.Fatal` on a path that does not open. -/
def readerLoop (fs : FS) : List (List Byte) → Nat → List File × Bool
  | [], _ => ([], true)
  | v :: rest, n =>
    match fs v with
    | none => ([], false)
    | some d =>
      let r := readerLoop fs rest (n + 1)
      (⟨n, d.size, d.image⟩ :: r.1, r.2)

/-- The goroutine of `singleThreadReader`. -/
def singleThreadReader (fs : FS) (names : List (List Byte)) : List File × Bool :=
  readerLoop fs names 0

/-! ## singleThreadDecoder -/

/-- The loop `for f := range ch` of `singleThreadDecoder` on the handles
`ch` still holds, and the `close(chw)` after it: `closed` tells whether `ch`
is closed after its last handle, `nowrite` is the flag the loop of `main`
runs with. -/
def singleLoop (nodecode nowrite closed : Bool) : List File → State → Run
  | [], s =>
    if closed then ⟨{ s with ch := [], trace := s.trace ++ [Event.closeChw] }, Outcome.done⟩
    else ⟨{ s with ch := [] }, Outcome.blocked⟩
  | f :: rest, s =>
    let s1 : State := { s with ch := rest, trace := s.trace ++ [Event.draw f] }
    match f.size with
    | none => ⟨s1, Outcome.fatal⟩
    | some sz =>
      let s2 : State := { s1 with totalSize := wrap64 (s1.totalSize + sz) }
      if nodecode then
        singleLoop nodecode nowrite closed rest
          { s2 with trace := s2.trace ++ [Event.closeFile f] }
      else
        match f.image with
        | none => ⟨s2, Outcome.fatal⟩
        | some img =>
          let s3 : State := { s2 with trace := s2.trace ++ [Event.send img] }
          if rejects nowrite img then ⟨s3, Outcome.panic⟩
          else
            singleLoop nodecode nowrite closed rest
              { s3 with trace := s3.trace ++ [Event.closeFile f] }

/-- The function `singleThreadDecoder`. -/
def singleThreadDecoder (nodecode nowrite closed : Bool) (s : State) : Run :=
  singleLoop nodecode nowrite closed s.ch s

/-! ## multiThreadDecoder -/

/-- How the collecting loop ended: `full` the counter reached `*numThreads`,
`final` the channel was closed (`needsClose = true`), `blocked` the channel
is empty and never closed, `fatal` a `Stat` failed. -/
inductive Collected where
  | full
  | final
  | blocked
  | fatal
deriving DecidableEq, Repr

/-- The collecting loop `for i := 0; i < *numThreads; i++` with `k`
iterations left and `files` collected so far. -/
def collect (closed : Bool) : Nat → List File → State → Collected × List File × State
  | 0, files, s => (Collected.full, files, s)
  | k + 1, files, s =>
    match s.ch with
    | [] => if closed then (Collected.final, files, s) else (Collected.blocked, files, s)
    | f :: rest =>
      let s1 : State := { s with ch := rest, trace := s.trace ++ [Event.draw f] }
      match f.size with
      | none => (Collected.fatal, files ++ [f], s1)
      | some sz =>
        collect closed k (files ++ [f]) { s1 with totalSize := wrap64 (s1.totalSize + sz) }

/-- The decode tasks of a batch and the loop `chw <- <-ch` over their
channels: the frames are sent in batch order up to the first file whose
decode task calls `log.Fatal`, or up to the first frame `main` panics on;
`none` when every frame was sent and received. -/
def emitAll (nowrite : Bool) : List File → List Event → Option Outcome × List Event
  | [], tr => (none, tr)
  | f :: rest, tr =>
    match f.image with
    | none => (some Outcome.fatal, tr)
    | some img =>
      if rejects nowrite img then (some Outcome.panic, tr ++ [Event.send img])
      else emitAll nowrite rest (tr ++ [Event.send img])

/-- The rest of a turn once the batch `files` is collected: the decode
tasks and the sends, the `Close` of every file, and the test of
`needsClose`. -/
def finish (nodecode nowrite needsClose : Bool) (files : List File) (s : State) :
    Option Outcome × State :=
  let s2 : State := { s with batches := s.batches ++ [(files, needsClose)] }
  let e := if nodecode then (none, s2.trace) else emitAll nowrite files s2.trace
  match e.1 with
  | some o => (some o, { s2 with trace := e.2 })
  | none =>
    let s3 : State := { s2 with trace := e.2 ++ files.map Event.closeFile }
    if needsClose then (some Outcome.done, { s3 with trace := s3.trace ++ [Event.closeChw] })
    else (none, s3)

/-- One turn of the outer loop of `multiThreadDecoder`: `none` with the new
state when the loop goes round again, otherwise how the decoder ended. -/
def cycle (numThreads : Int) (nodecode nowrite closed : Bool) (s : State) :
    Option Outcome × State :=
  let c := collect closed numThreads.toNat [] s
  match c.1 with
  | Collected.fatal => (some Outcome.fatal, c.2.2)
  | Collected.blocked => (some Outcome.blocked, c.2.2)
  | Collected.final => finish nodecode nowrite true c.2.1 c.2.2
  | Collected.full => finish nodecode nowrite false c.2.1 c.2.2

/-- The function `multiThreadDecoder`, run for at most `fuel` turns of its
outer loop. -/
def multiThreadDecoder (numThreads : Int) (nodecode nowrite closed : Bool) :
    Nat → State → Run
  | 0, s => ⟨s, Outcome.outOfFuel⟩
  | fuel + 1, s =>
    match cycle numThreads nodecode nowrite closed s with
    | (none, s1) => multiThreadDecoder numThreads nodecode nowrite closed fuel s1
    | (some o, s1) => ⟨s1, o⟩

/-! ## main -/

/-- The thread count after `if *numThreads == 0 { *numThreads = runtime.NumCPU() }`. -/
def threadCount (numThreads : Int) (numCPU : Nat) : Int :=
  if numThreads = 0 then (numCPU : Int) else numThreads

/-- The decoder `main` starts on the handles of `ch`; `numThreads` is the
thread count after the replacement of 0. -/
def decoder (numThreads : Int) (nodecode nowrite closed : Bool) (fuel : Nat)
    (hs : List File) : Run :=
  if numThreads = 1 then singleThreadDecoder nodecode nowrite closed (State.init hs)
  else multiThreadDecoder numThreads nodecode nowrite closed fuel (State.init hs)

/-- The reader, the decoder and the loop over `chw` of `main` on a path
list: the run of the decoder against the loop of `main`.  When the reader
called `log.Fatal` the outcome is that `fatal`, unless the run has reached
the panic of `main`. -/
def pipeline (numThreads : Int) (nodecode nowrite : Bool) (fs : FS) (fuel : Nat)
    (names : List (List Byte)) : Run :=
  let r := singleThreadReader fs names
  let d := decoder numThreads nodecode nowrite r.2 fuel r.1
  if r.2 then d else if d.outcome = Outcome.panic then d else ⟨d.state, Outcome.fatal⟩

/-- The frames sent on `chw` and received by `main`, in order. -/
def frames : List Event → List Image
  | [] => []
  | Event.send img :: rest => img :: frames rest
  | _ :: rest => frames rest

/-- The handles received from `ch`, in order. -/
def draws : List Event → List File
  | [] => []
  | Event.draw f :: rest => f :: draws rest
  | _ :: rest => draws rest

/-- The handles closed, in order. -/
def closes : List Event → List File
  | [] => []
  | Event.closeFile f :: rest => f :: closes rest
  | _ :: rest => closes rest

/-- What the loop of `main` over `chw` has written. -/
structure Output where
  stdout : List Byte
  stderr : List Byte
  panicked : Bool
deriving DecidableEq, Repr

/-- The loop `for img := range chw` of `main` on the frames it receives:
the type assertion `img.(*image.YCbCr)` panics on an image of another
type. -/
def sink (nowrite : Bool) : List Image → Output → Output
  | [], o => o
  | img :: rest, o =>
    if nowrite then sink nowrite rest { o with stderr := o.stderr ++ [119] }
    else
      match img with
      | Image.ycbcr Y Cb Cr => sink nowrite rest { o with stdout := o.stdout ++ Y ++ Cb ++ Cr }
      | Image.other _ => { o with panicked := true }

/-! ## Vocabulary of the statements -/

/-- The accumulator after the sizes of `hs` are added to `acc` one by one,
each addition wrapping as an `int64` addition does. -/
def accum (acc : Int) : List File → Int
  | [] => acc
  | f :: rest => accum (wrap64 (acc + f.size.getD 0)) rest

/-- The sum of the sizes of a list of handles, as an integer. -/
def sumSizes (hs : List File) : Int := (hs.map fun f => f.size.getD 0).sum

/-- The sends of the frames of a list of handles, in order; none when
decoding is skipped. -/
def sends (nodecode : Bool) (hs : List File) : List Event :=
  if nodecode then [] else hs.filterMap fun f => f.image.map Event.send

/-- A handle on which the decoder calls `log.Fatal`: its `Stat` fails, or
decoding is enabled and its decode fails. -/
def failing (nodecode : Bool) (f : File) : Bool :=
  f.size.isNone || (!nodecode && f.image.isNone)

/-- A handle whose frame the loop of `main` panics on: decoding is enabled,
the handle decodes, and `main` rejects the frame. -/
def panicking (nodecode nowrite : Bool) (f : File) : Bool :=
  !nodecode && (match f.image with
    | some img => rejects nowrite img
    | none => false)

/-- A handle that ends the process: it is failing or panicking. -/
def bad (nodecode nowrite : Bool) (f : File) : Bool :=
  failing nodecode f || panicking nodecode nowrite f

/-- A path on which the pipeline calls `log.Fatal`: it does not open, or the
handle opened is failing. -/
def failingPath (fs : FS) (nodecode : Bool) (p : List Byte) : Bool :=
  match fs p with
  | none => true
  | some d => d.size.isNone || (!nodecode && d.image.isNone)

/-- A path that ends the process: it is failing, or decoding is enabled and
the loop of `main` panics on its frame. -/
def badPath (fs : FS) (nodecode nowrite : Bool) (p : List Byte) : Bool :=
  match fs p with
  | none => true
  | some d => bad nodecode nowrite ⟨0, d.size, d.image⟩

/-- The frames `main` receives of a sequence of frames sent in order: all up
to and including the first one it panics on. -/
def cut (nowrite : Bool) : List Image → List Image
  | [] => []
  | img :: rest => if rejects nowrite img then [img] else img :: cut nowrite rest

/-- The batches of `hs` for batch size `k`, at most `fuel` of them: batches
of `k` handles while `k` are left, then the handles left as the final
batch. -/
def batchesOf (k : Nat) : Nat → List File → List (List File × Bool)
  | 0, _ => []
  | fuel + 1, hs =>
    if hs.length < k then [(hs, true)]
    else (hs.take k, false) :: batchesOf k fuel (hs.drop k)

/-- The actions of the decoder on one batch: the draws, then the sends,
then the closes. -/
def batchTrace (nodecode : Bool) (b : List File × Bool) : List Event :=
  b.1.map Event.draw ++ sends nodecode b.1 ++ b.1.map Event.closeFile

/-- How the collecting loop ends when no `Stat` fails. -/
def collectEnd (closed : Bool) (k n : Nat) : Collected :=
  if k ≤ n then Collected.full else if closed then Collected.final else Collected.blocked

/-- The frames decoded from a list of handles, in order; none when decoding
is skipped. -/
def images (nodecode : Bool) (hs : List File) : List Image :=
  if nodecode then [] else hs.filterMap fun f => f.image

/-- The handles before the first failing handle. -/
def okPrefix (nodecode : Bool) (hs : List File) : List File :=
  hs.takeWhile fun f => !failing nodecode f

/-- The paths before the first failing path. -/
def okPaths (fs : FS) (nodecode : Bool) (names : List (List Byte)) : List (List Byte) :=
  names.takeWhile fun p => !failingPath fs nodecode p

/-- The frame `jpeg.Decode` gives for the file opened at a path; `none` when
the open or the decode fails. -/
def decodePath (fs : FS) (p : List Byte) : Option Image := (fs p).bind fun d => d.image

/-- The size `Stat` gives for the file opened at a path; `none` when the
open or the `Stat` fails. -/
def statPath (fs : FS) (p : List Byte) : Option Int := (fs p).bind fun d => d.size

/-- The sum of the sizes of the files at a list of paths, as an integer. -/
def pathSizes (fs : FS) (names : List (List Byte)) : Int :=
  (names.map fun p => (statPath fs p).getD 0).sum

/-- What the end `o` of a decoder run on the handles `ch` tells, where `zs`
are the handles whose frames were sent: a run that returns has gone through
all of `ch`, closed after them, with no panic; a panic comes from a frame of
`zs`, and only a run that ends in it has sent such a frame; a `log.Fatal`
comes from a failing handle of `ch`; a run is blocked only on a channel that
is never closed; and no run is cut short by the step budget. -/
def EndsBy (nodecode nowrite closed : Bool) (ch zs : List File) : Outcome → Prop
  | Outcome.done => zs = ch ∧ closed = true ∧ zs.any (panicking nodecode nowrite) = false
  | Outcome.panic => zs.any (panicking nodecode nowrite) = true
  | Outcome.fatal =>
    ch.any (failing nodecode) = true ∧ zs.any (panicking nodecode nowrite) = false
  | Outcome.blocked => closed = false ∧ zs.any (panicking nodecode nowrite) = false
  | Outcome.outOfFuel => False

/-- A path that fails to open. -/
def FailsOpen (fs : FS) (p : List Byte) : Prop := fs p = none

/-- A path that opens to a handle whose `Stat` fails. -/
def FailsStat (fs : FS) (p : List Byte) : Prop := ∃ d, fs p = some d ∧ d.size = none

/-- A path that opens to a handle whose decode fails. -/
def FailsDecode (fs : FS) (p : List Byte) : Prop := ∃ d, fs p = some d ∧ d.image = none

/-- A path that opens to a handle that decodes to a frame that is not a
`*image.YCbCr`. -/
def NotYCbCr (fs : FS) (p : List Byte) : Prop :=
  ∃ d img, fs p = some d ∧ d.image = some img ∧ isYCbCr img = false

/-- A run that ended in a failure of the process: `log.Fatal` or a panic. -/
def Failed (r : Run) : Prop := r.outcome = Outcome.fatal ∨ r.outcome = Outcome.panic

/-- The batch structure of a run `r` of `multiThreadDecoder` on the handles
`hs` with batch size `k`: the batches formed are `hs.length / k`
non-final batches of `k` handles each and then one final batch of
`hs.length % k` handles, their concatenation is `hs`, and the run closes
`chw` once, as its last action, and returns. -/
def BatchStructure (k : Nat) (hs : List File) (r : Run) : Prop :=
  ∃ (bs : List (List File)) (last : List File),
    r.state.batches = bs.map (fun b => (b, false)) ++ [(last, true)] ∧
    bs.length = hs.length / k ∧ (∀ b ∈ bs, b.length = k) ∧
    last.length = hs.length % k ∧ bs.flatten ++ last = hs ∧
    r.state.trace.count Event.closeChw = 1 ∧
    r.state.trace.getLast? = some Event.closeChw ∧
    r.outcome = Outcome.done

/-! ## Sample inputs -/

/-- The path `a.jpg`. -/
def aJpg : List Byte := [97, 46, 106, 112, 103]

/-- The path `b.jpg`. -/
def bJpg : List Byte := [98, 46, 106, 112, 103]

/-- The path `c.jpg`. -/
def cJpg : List Byte := [99, 46, 106, 112, 103]

/-- A frame of 2 by 2 pixels with 4:2:0 subsampling, every sample `v`. -/
def flatFrame (v : Byte) : Image := Image.ycbcr [v, v, v, v] [v] [v]

/-- A directory that holds `a.jpg`, `b.jpg` and `c.jpg`, three files that
decode, and nothing else. -/
def sampleFS : FS := fun p =>
  if p = aJpg then some ⟨some 700, some (flatFrame 1)⟩
  else if p = bJpg then some ⟨some 800, some (flatFrame 2)⟩
  else if p = cJpg then some ⟨some 900, some (flatFrame 3)⟩
  else none

/-- The path list of the scenario: `a.jpg`, `b.jpg`, `c.jpg`. -/
def sampleNames : List (List Byte) := [aJpg, bJpg, cJpg]

/-- A handle that stats and decodes. -/
def goodHandle (i : Nat) (v : Byte) : File := ⟨i, some 700, some (flatFrame v)⟩

/-- A handle whose `Stat` fails. -/
def statErrHandle (i : Nat) (v : Byte) : File := ⟨i, none, some (flatFrame v)⟩

/-- A handle whose decode fails. -/
def decodeErrHandle (i : Nat) : File := ⟨i, some 700, none⟩

/-- A handle that decodes to a grayscale image, not a `*image.YCbCr`. -/
def grayHandle (i : Nat) : File := ⟨i, some 700, some (Image.other 0)⟩

/-- The path `gray.jpg`. -/
def grayJpg : List Byte := [103, 114, 97, 121, 46, 106, 112, 103]

/-- The directory `sampleFS` with one more file, `gray.jpg`, a grayscale
JPEG: it decodes, to an image that is not a `*image.YCbCr`. -/
def grayFS : FS := fun p =>
  if p = grayJpg then some ⟨some 750, some (Image.other 0)⟩ else sampleFS p

/-- A directory whose only file, `a.jpg`, decodes and is 2^62 bytes long. -/
def hugeFS : FS := fun p =>
  if p = aJpg then some ⟨some 4611686018427387904, some (flatFrame 1)⟩ else none

/-! ## Arithmetic of the accumulator -/

theorem wrap64_add_wrap64 (a b : Int) : wrap64 (wrap64 a + b) = wrap64 (a + b) := by
  unfold wrap64
  omega

theorem wrap64_of_range (a : Int) (h0 : -(2 ^ 63) ≤ a) (h1 : a < 2 ^ 63) : wrap64 a = a := by
  unfold wrap64
  omega

theorem accum_wrap (acc : Int) (hs : List File) :
    accum (wrap64 acc) hs = wrap64 (acc + sumSizes hs) := by
  induction hs generalizing acc with
  | nil => simp [accum, sumSizes]
  | cons f rest ih =>
    simp only [accum, sumSizes, List.map_cons, List.sum_cons]
    rw [wrap64_add_wrap64, ih]
    simp only [sumSizes]
    congr 1
    ring

theorem accum_zero (hs : List File) : accum 0 hs = wrap64 (sumSizes hs) := by
  have h := accum_wrap 0 hs
  have h0 : wrap64 0 = 0 := by decide
  rw [h0] at h
  simpa using h

theorem accum_append (acc : Int) (xs ys : List File) :
    accum acc (xs ++ ys) = accum (accum acc xs) ys := by
  induction xs generalizing acc with
  | nil => rfl
  | cons f rest ih => simp [accum, ih]

/-! ## Projections of a trace -/

theorem frames_append (xs ys : List Event) : frames (xs ++ ys) = frames xs ++ frames ys := by
  induction xs with
  | nil => rfl
  | cons e rest ih => cases e <;> simp [frames, ih]

theorem draws_append (xs ys : List Event) : draws (xs ++ ys) = draws xs ++ draws ys := by
  induction xs with
  | nil => rfl
  | cons e rest ih => cases e <;> simp [draws, ih]

theorem closes_append (xs ys : List Event) : closes (xs ++ ys) = closes xs ++ closes ys := by
  induction xs with
  | nil => rfl
  | cons e rest ih => cases e <;> simp [closes, ih]

theorem frames_map_draw (hs : List File) : frames (hs.map Event.draw) = [] := by
  induction hs with
  | nil => rfl
  | cons f rest ih => simpa [frames] using ih

theorem frames_map_closeFile (hs : List File) : frames (hs.map Event.closeFile) = [] := by
  induction hs with
  | nil => rfl
  | cons f rest ih => simpa [frames] using ih

theorem frames_sends (nodecode : Bool) (hs : List File) :
    frames (sends nodecode hs) = images nodecode hs := by
  cases nodecode with
  | true => simp [sends, images, frames]
  | false =>
    induction hs with
    | nil => simp [sends, images, frames]
    | cons f rest ih =>
      cases hf : f.image with
      | none => simpa [sends, images, hf] using ih
      | some img => simpa [sends, images, hf, frames] using ih

theorem draws_map_draw (hs : List File) : draws (hs.map Event.draw) = hs := by
  induction hs with
  | nil => rfl
  | cons f rest ih => simpa [draws] using ih

theorem draws_map_closeFile (hs : List File) : draws (hs.map Event.closeFile) = [] := by
  induction hs with
  | nil => rfl
  | cons f rest ih => simpa [draws] using ih

theorem draws_sends (nodecode : Bool) (hs : List File) : draws (sends nodecode hs) = [] := by
  cases nodecode with
  | true => simp [sends, draws]
  | false =>
    induction hs with
    | nil => simp [sends, draws]
    | cons f rest ih =>
      cases hf : f.image with
      | none => simpa [sends, hf] using ih
      | some img => simpa [sends, hf, draws] using ih

theorem closes_map_draw (hs : List File) : closes (hs.map Event.draw) = [] := by
  induction hs with
  | nil => rfl
  | cons f rest ih => simpa [closes] using ih

theorem closes_map_closeFile (hs : List File) : closes (hs.map Event.closeFile) = hs := by
  induction hs with
  | nil => rfl
  | cons f rest ih => simpa [closes] using ih

theorem closes_sends (nodecode : Bool) (hs : List File) : closes (sends nodecode hs) = [] := by
  cases nodecode with
  | true => simp [sends, closes]
  | false =>
    induction hs with
    | nil => simp [sends, closes]
    | cons f rest ih =>
      cases hf : f.image with
      | none => simpa [sends, hf] using ih
      | some img => simpa [sends, hf, closes] using ih

theorem images_append (nodecode : Bool) (xs ys : List File) :
    images nodecode (xs ++ ys) = images nodecode xs ++ images nodecode ys := by
  cases nodecode <;> simp [images]

theorem frames_batches (nodecode : Bool) (bs : List (List File × Bool)) :
    frames (bs.flatMap (batchTrace nodecode)) = images nodecode (bs.map Prod.fst).flatten := by
  induction bs with
  | nil => cases nodecode <;> simp [frames, images]
  | cons b rest ih =>
    simp only [List.flatMap_cons, frames_append, ih, batchTrace, frames_map_draw,
      frames_sends, frames_map_closeFile, List.map_cons, List.flatten_cons, images_append]
    simp

theorem draws_batches (nodecode : Bool) (bs : List (List File × Bool)) :
    draws (bs.flatMap (batchTrace nodecode)) = (bs.map Prod.fst).flatten := by
  induction bs with
  | nil => simp [draws]
  | cons b rest ih =>
    simp only [List.flatMap_cons, draws_append, ih, batchTrace, draws_map_draw,
      draws_sends, draws_map_closeFile, List.map_cons, List.flatten_cons]
    simp

theorem closes_batches (nodecode : Bool) (bs : List (List File × Bool)) :
    closes (bs.flatMap (batchTrace nodecode)) = (bs.map Prod.fst).flatten := by
  induction bs with
  | nil => simp [closes]
  | cons b rest ih =>
    simp only [List.flatMap_cons, closes_append, ih, batchTrace, closes_map_draw,
      closes_sends, closes_map_closeFile, List.map_cons, List.flatten_cons]
    simp

theorem frames_closeChw : frames [Event.closeChw] = [] := rfl

theorem draws_closeChw : draws [Event.closeChw] = [] := rfl

theorem closes_closeChw : closes [Event.closeChw] = [] := rfl

theorem singles_flatten (hs : List File) :
    ((hs.map fun f => (([f], true) : List File × Bool)).map Prod.fst).flatten = hs := by
  induction hs with
  | nil => rfl
  | cons f rest ih => simpa using ih

theorem singles_flatMap (nodecode : Bool) (hs : List File) :
    hs.flatMap (fun f => batchTrace nodecode ([f], true)) =
      (hs.map fun f => (([f], true) : List File × Bool)).flatMap (batchTrace nodecode) := by
  induction hs with
  | nil => rfl
  | cons f rest ih => simp [List.flatMap_cons, ih]

theorem closeChw_not_mem_batches (nodecode : Bool) (bs : List (List File × Bool)) :
    Event.closeChw ∉ bs.flatMap (batchTrace nodecode) := by
  intro h
  rw [List.mem_flatMap] at h
  obtain ⟨b, _, hb⟩ := h
  simp only [batchTrace, sends, List.mem_append, List.mem_map] at hb
  rcases hb with (⟨f, _, hf⟩ | hb) | ⟨f, _, hf⟩
  · cases hf
  · cases nodecode with
    | true => simp at hb
    | false =>
      simp only [Bool.false_eq_true, if_false, List.mem_filterMap] at hb
      obtain ⟨f, _, hf⟩ := hb
      cases hi : f.image with
      | none => simp [hi] at hf
      | some img => simp [hi] at hf
  · cases hf

/-! ## The collecting loop -/

theorem forall_of_any_false (p : File → Bool) (hs : List File) (h : hs.any p = false) :
    ∀ f ∈ hs, p f = false := by
  rw [List.any_eq_false] at h
  intro f hf
  exact Bool.eq_false_iff.2 (h f hf)

theorem collect_ok (closed : Bool) (k : Nat) (files : List File) (s : State)
    (h : ∀ f ∈ s.ch.take k, f.size.isNone = false) :
    collect closed k files s =
      (collectEnd closed k s.ch.length, files ++ s.ch.take k,
        { s with ch := s.ch.drop k, trace := s.trace ++ (s.ch.take k).map Event.draw,
                 totalSize := accum s.totalSize (s.ch.take k) }) := by
  induction k generalizing files s with
  | zero => simp [collect, collectEnd, accum]
  | succ k ih =>
    obtain ⟨ch, tr, ts, bs⟩ := s
    cases ch with
    | nil => cases closed <;> simp [collect, collectEnd, accum]
    | cons f rest =>
      have hf : f.size.isNone = false := h f (by simp)
      obtain ⟨sz, hsz⟩ : ∃ sz, f.size = some sz := by
        cases hs : f.size with
        | none => simp [hs] at hf
        | some sz => exact ⟨sz, rfl⟩
      have hrest : ∀ g ∈ rest.take k, g.size.isNone = false := fun g hg => h g (by simp [hg])
      simp only [collect, hsz]
      rw [ih]
      · simp [collectEnd, accum, hsz]
      · exact hrest

theorem collect_fatal (closed : Bool) (k : Nat) (files : List File) (s : State)
    (h : (s.ch.take k).any (fun f => f.size.isNone) = true) :
    (collect closed k files s).1 = Collected.fatal := by
  induction k generalizing files s with
  | zero => simp at h
  | succ k ih =>
    obtain ⟨ch, tr, ts, bs⟩ := s
    cases ch with
    | nil => simp at h
    | cons f rest =>
      cases hs : f.size with
      | none => simp [collect, hs]
      | some sz =>
        simp only [collect, hs]
        apply ih
        simpa [hs] using h

theorem collect_frames (closed : Bool) (k : Nat) (files : List File) (s : State) :
    frames (collect closed k files s).2.2.trace = frames s.trace := by
  induction k generalizing files s with
  | zero => simp [collect]
  | succ k ih =>
    obtain ⟨ch, tr, ts, bs⟩ := s
    cases ch with
    | nil => cases closed <;> simp [collect]
    | cons f rest =>
      cases hsz : f.size with
      | none => simp [collect, hsz, frames_append, frames]
      | some sz =>
        simp only [collect, hsz]
        rw [ih]
        simp [frames_append, frames]

/-! ## The batches -/

theorem batchesOf_flatten (k : Nat) (hk : 1 ≤ k) (fuel : Nat) (hs : List File)
    (hfuel : hs.length < fuel) :
    ((batchesOf k fuel hs).map Prod.fst).flatten = hs := by
  induction fuel generalizing hs with
  | zero => omega
  | succ fuel ih =>
    by_cases hlt : hs.length < k
    · simp [batchesOf, hlt]
    · simp only [batchesOf, hlt, if_false, List.map_cons, List.flatten_cons]
      rw [ih]
      · exact List.take_append_drop k hs
      · simp only [List.length_drop]
        omega

theorem batchesOf_shape (k : Nat) (hk : 1 ≤ k) (fuel : Nat) (hs : List File)
    (hfuel : hs.length < fuel) :
    ∃ (bs : List (List File)) (last : List File),
      batchesOf k fuel hs = bs.map (fun b => (b, false)) ++ [(last, true)] ∧
      bs.length = hs.length / k ∧ (∀ b ∈ bs, b.length = k) ∧
      last.length = hs.length % k ∧ bs.flatten ++ last = hs := by
  induction fuel generalizing hs with
  | zero => omega
  | succ fuel ih =>
    by_cases hlt : hs.length < k
    · refine ⟨[], hs, ?_, ?_, ?_, ?_, ?_⟩
      · simp [batchesOf, hlt]
      · simp [Nat.div_eq_of_lt hlt]
      · simp
      · exact (Nat.mod_eq_of_lt hlt).symm
      · simp
    · have hle : k ≤ hs.length := by omega
      have hlen : (hs.drop k).length = hs.length - k := List.length_drop k hs
      obtain ⟨bs, last, h1, h2, h3, h4, h5⟩ := ih (hs.drop k) (by omega)
      refine ⟨hs.take k :: bs, last, ?_, ?_, ?_, ?_, ?_⟩
      · simp [batchesOf, hlt, h1]
      · rw [List.length_cons, h2, hlen]
        have := Nat.div_eq_sub_div (by omega : 0 < k) hle
        omega
      · intro b hb
        rcases List.mem_cons.1 hb with rfl | hb
        · simp [List.length_take, hle]
        · exact h3 b hb
      · rw [h4, hlen]
        exact (Nat.mod_eq_sub_mod hle).symm
      · simp only [List.flatten_cons, List.append_assoc, h5]
        exact List.take_append_drop k hs

/-! ## The frames `main` receives -/

theorem cut_prefix_self (nowrite : Bool) (xs : List Image) : cut nowrite xs <+: xs := by
  induction xs with
  | nil => exact List.prefix_refl _
  | cons x rest ih =>
    cases h : rejects nowrite x with
    | true =>
      simp only [cut, h, if_true]
      exact ⟨rest, rfl⟩
    | false =>
      simp only [cut, h, Bool.false_eq_true, if_false]
      exact (List.prefix_cons_inj x).2 ih

theorem cut_append_ok (nowrite : Bool) (xs ys : List Image)
    (h : xs.any (rejects nowrite) = false) :
    cut nowrite (xs ++ ys) = xs ++ cut nowrite ys := by
  induction xs with
  | nil => rfl
  | cons x rest ih =>
    simp only [List.any_cons, Bool.or_eq_false_iff] at h
    have := ih h.2
    simp only [List.cons_append, cut, h.1, Bool.false_eq_true, if_false]
    exact congrArg (List.cons x) this

theorem cut_ok (nowrite : Bool) (xs : List Image) (h : xs.any (rejects nowrite) = false) :
    cut nowrite xs = xs := by
  have := cut_append_ok nowrite xs [] h
  simpa [cut] using this

theorem cut_append_stop (nowrite : Bool) (xs ys : List Image)
    (h : xs.any (rejects nowrite) = true) :
    cut nowrite (xs ++ ys) = cut nowrite xs := by
  induction xs with
  | nil => simp at h
  | cons x rest ih =>
    cases hx : rejects nowrite x with
    | true => simp only [List.cons_append, cut, hx, if_true]
    | false =>
      simp only [List.any_cons, hx, Bool.false_or] at h
      have := ih h
      simp only [List.cons_append, cut, hx, Bool.false_eq_true, if_false]
      exact congrArg (List.cons x) this

theorem cut_mono (nowrite : Bool) (xs ys : List Image) (h : xs <+: ys) :
    cut nowrite xs <+: cut nowrite ys := by
  obtain ⟨t, rfl⟩ := h
  cases hx : xs.any (rejects nowrite) with
  | true =>
    rw [cut_append_stop nowrite xs t hx]
  | false =>
    rw [cut_append_ok nowrite xs t hx, cut_ok nowrite xs hx]
    exact List.prefix_append _ _

theorem frames_map_send (xs : List Image) : frames (xs.map Event.send) = xs := by
  induction xs with
  | nil => rfl
  | cons x rest ih => simpa [frames] using ih

theorem images_any_rejects (nodecode nowrite : Bool) (zs : List File) :
    (images nodecode zs).any (rejects nowrite) = zs.any (panicking nodecode nowrite) := by
  cases nodecode with
  | true =>
    simp only [images, if_true, List.any_nil]
    symm
    rw [List.any_eq_false]
    intro f _
    simp [panicking]
  | false =>
    induction zs with
    | nil => rfl
    | cons f rest ih =>
      simp only [images, Bool.false_eq_true, if_false] at ih
      cases hf : f.image with
      | none =>
        simp only [images, Bool.false_eq_true, if_false, List.filterMap_cons, hf, List.any_cons,
          panicking, Bool.not_false, Bool.true_and, Bool.false_or, ih]
      | some img =>
        simp only [images, Bool.false_eq_true, if_false, List.filterMap_cons, hf, List.any_cons,
          panicking, Bool.not_false, Bool.true_and, ih]

/-! ## Handles that end the process -/

theorem failing_false_iff (nodecode : Bool) (f : File) :
    failing nodecode f = false ↔
      f.size.isNone = false ∧ (nodecode = false → f.image.isNone = false) := by
  cases nodecode <;> simp [failing]

theorem bad_false_iff (nodecode nowrite : Bool) (f : File) :
    bad nodecode nowrite f = false ↔
      failing nodecode f = false ∧ panicking nodecode nowrite f = false := by
  simp [bad]

theorem not_failing_of_ne (nodecode : Bool) (f : File) (h1 : f.size ≠ none)
    (h2 : nodecode = false → f.image ≠ none) : failing nodecode f = false := by
  cases hs : f.size with
  | none => exact absurd hs h1
  | some sz =>
    cases nodecode with
    | true => simp [failing, hs]
    | false =>
      cases hi : f.image with
      | none => exact absurd hi (h2 rfl)
      | some img => simp [failing, hs, hi]

theorem not_bad_of (nodecode nowrite : Bool) (f : File) (h1 : f.size ≠ none)
    (h2 : nodecode = false →
      ∃ img, f.image = some img ∧ (nowrite = false → isYCbCr img = true)) :
    bad nodecode nowrite f = false := by
  rw [bad_false_iff]
  constructor
  · refine not_failing_of_ne nodecode f h1 fun hn => ?_
    obtain ⟨img, himg, _⟩ := h2 hn
    simp [himg]
  · cases nodecode with
    | true => simp [panicking]
    | false =>
      obtain ⟨img, himg, hy⟩ := h2 rfl
      cases nowrite with
      | true => simp [panicking, himg, rejects]
      | false => simp [panicking, himg, rejects, hy rfl]

theorem any_take_drop (p : File → Bool) (k : Nat) (hs : List File) :
    hs.any p = ((hs.take k).any p || (hs.drop k).any p) := by
  rw [← List.any_append, List.take_append_drop]

/-! ## The sends of a batch -/

theorem emitAll_fst (nowrite : Bool) (files : List File) (tr : List Event) :
    (emitAll nowrite files tr).1 =
      if (images false (files.takeWhile fun f => f.image.isSome)).any (rejects nowrite) then
        some Outcome.panic
      else if files.all (fun f => f.image.isSome) then none else some Outcome.fatal := by
  induction files generalizing tr with
  | nil => rfl
  | cons f rest ih =>
    cases himg : f.image with
    | none => simp [emitAll, himg, images]
    | some img =>
      cases hr : rejects nowrite img with
      | true => simp [emitAll, himg, hr, images, List.takeWhile_cons]
      | false =>
        simp only [emitAll, himg, hr, Bool.false_eq_true, if_false]
        rw [ih]
        simp [images, List.takeWhile_cons, himg, hr]

theorem emitAll_snd (nowrite : Bool) (files : List File) (tr : List Event) :
    (emitAll nowrite files tr).2 =
      tr ++ (cut nowrite (images false (files.takeWhile fun f => f.image.isSome))).map
        Event.send := by
  induction files generalizing tr with
  | nil => simp [emitAll, images, cut]
  | cons f rest ih =>
    cases himg : f.image with
    | none => simp [emitAll, himg, images, cut]
    | some img =>
      cases hr : rejects nowrite img with
      | true => simp [emitAll, himg, hr, images, List.takeWhile_cons, cut]
      | false =>
        simp only [emitAll, himg, hr, Bool.false_eq_true, if_false]
        rw [ih]
        simp [images, List.takeWhile_cons, himg, hr, cut]

theorem emitAll_ok (nowrite : Bool) (files : List File) (tr : List Event)
    (h : ∀ f ∈ files, bad false nowrite f = false) :
    emitAll nowrite files tr = (none, tr ++ sends false files) := by
  induction files generalizing tr with
  | nil => simp [emitAll, sends]
  | cons f rest ih =>
    have hf := (bad_false_iff false nowrite f).1 (h f (by simp))
    cases himg : f.image with
    | none => simp [failing, himg] at hf
    | some img =>
      have hr : rejects nowrite img = false := by simpa [panicking, himg] using hf.2
      simp only [emitAll, himg, hr, Bool.false_eq_true, if_false]
      rw [ih _ (fun g hg => h g (by simp [hg]))]
      simp [sends, himg]

/-! ## One turn of `multiThreadDecoder` -/

theorem finish_fst (nodecode nowrite needsClose : Bool) (files : List File) (s : State) :
    (finish nodecode nowrite needsClose files s).1 =
      if (if nodecode then files else files.takeWhile fun f => f.image.isSome).any
          (panicking nodecode nowrite) then some Outcome.panic
      else if nodecode || files.all (fun f => f.image.isSome) then
        (if needsClose then some Outcome.done else none)
      else some Outcome.fatal := by
  cases nodecode with
  | true =>
    have hp : files.any (panicking true nowrite) = false := by
      rw [List.any_eq_false]
      intro f _
      simp [panicking]
    cases needsClose <;> simp [finish, hp]
  | false =>
    simp only [finish, emitAll_fst, Bool.false_eq_true, if_false, Bool.false_or,
      images_any_rejects]
    cases (files.takeWhile fun f => f.image.isSome).any (panicking false nowrite) with
    | true => simp
    | false =>
      cases files.all (fun f => f.image.isSome) with
      | false => simp
      | true => cases needsClose <;> simp

theorem finish_frames (nodecode nowrite needsClose : Bool) (files : List File) (s : State) :
    frames (finish nodecode nowrite needsClose files s).2.trace =
      frames s.trace ++ cut nowrite
        (images nodecode (if nodecode then files else files.takeWhile fun f => f.image.isSome)) := by
  cases nodecode with
  | true =>
    cases needsClose <;>
      simp [finish, images, cut, frames_append, frames_map_closeFile, frames]
  | false =>
    simp only [finish, emitAll_fst, emitAll_snd, Bool.false_eq_true, if_false]
    cases (images false (files.takeWhile fun f => f.image.isSome)).any (rejects nowrite) with
    | true => simp [frames_append, frames_map_send]
    | false =>
      cases files.all (fun f => f.image.isSome) with
      | false => simp [frames_append, frames_map_send]
      | true =>
        cases needsClose <;>
          simp [frames_append, frames_map_send, frames_map_closeFile, frames]

theorem finish_ch (nodecode nowrite needsClose : Bool) (files : List File) (s : State) :
    (finish nodecode nowrite needsClose files s).2.ch = s.ch := by
  cases nodecode with
  | true => cases needsClose <;> simp [finish]
  | false =>
    simp only [finish, emitAll_fst, emitAll_snd, Bool.false_eq_true, if_false]
    cases (images false (files.takeWhile fun f => f.image.isSome)).any (rejects nowrite) with
    | true => simp
    | false =>
      cases files.all (fun f => f.image.isSome) with
      | false => simp
      | true => cases needsClose <;> simp

theorem finish_ok (nodecode nowrite needsClose : Bool) (files : List File) (s : State)
    (h : ∀ f ∈ files, bad nodecode nowrite f = false) :
    finish nodecode nowrite needsClose files s =
      (if needsClose then some Outcome.done else none,
        { s with batches := s.batches ++ [(files, needsClose)],
                 trace := s.trace ++ sends nodecode files ++ files.map Event.closeFile ++
                   (if needsClose then [Event.closeChw] else []) }) := by
  cases nodecode with
  | true => cases needsClose <;> simp [finish, sends]
  | false => cases needsClose <;> simp [finish, emitAll_ok nowrite files _ h]

theorem finish_step (nodecode nowrite needsClose : Bool) (files : List File) (s : State)
    (hsz : ∀ f ∈ files, f.size.isNone = false) :
    ∃ zs : List File,
      frames (finish nodecode nowrite needsClose files s).2.trace =
        frames s.trace ++ cut nowrite (images nodecode zs) ∧
      zs <+: files ∧ (∀ f ∈ zs, failing nodecode f = false) ∧
      ((finish nodecode nowrite needsClose files s).1 = none →
        zs = files ∧ needsClose = false ∧ zs.any (panicking nodecode nowrite) = false) ∧
      ((finish nodecode nowrite needsClose files s).1 = some Outcome.done →
        zs = files ∧ needsClose = true ∧ zs.any (panicking nodecode nowrite) = false) ∧
      ((finish nodecode nowrite needsClose files s).1 = some Outcome.panic →
        zs.any (panicking nodecode nowrite) = true) ∧
      ((finish nodecode nowrite needsClose files s).1 = some Outcome.fatal →
        files.any (failing nodecode) = true ∧ zs.any (panicking nodecode nowrite) = false) ∧
      (finish nodecode nowrite needsClose files s).1 ≠ some Outcome.blocked ∧
      (finish nodecode nowrite needsClose files s).1 ≠ some Outcome.outOfFuel := by
  have hzs : (nodecode || files.all (fun f => f.image.isSome)) = true →
      (if nodecode then files else files.takeWhile fun f => f.image.isSome) = files := by
    intro h
    cases nodecode with
    | true => rfl
    | false =>
      simp only [Bool.false_or, List.all_eq_true] at h
      simp only [Bool.false_eq_true, if_false]
      exact List.takeWhile_eq_self_iff.2 h
  have hfat : (nodecode || files.all (fun f => f.image.isSome)) = false →
      files.any (failing nodecode) = true := by
    intro h
    cases nodecode with
    | true => simp at h
    | false =>
      simp only [Bool.false_or] at h
      rw [List.all_eq_false] at h
      obtain ⟨f, hf, hi⟩ := h
      rw [List.any_eq_true]
      refine ⟨f, hf, ?_⟩
      cases him : f.image with
      | none => simp [failing, him]
      | some img => simp [him] at hi
  refine ⟨if nodecode then files else files.takeWhile fun f => f.image.isSome,
    finish_frames nodecode nowrite needsClose files s, ?_, ?_, ?_⟩
  · cases nodecode with
    | true => exact List.prefix_refl _
    | false => exact List.takeWhile_prefix _
  · intro f hf
    cases nodecode with
    | true =>
      simp only [if_true] at hf
      simp [failing, hsz f hf]
    | false =>
      simp only [Bool.false_eq_true, if_false] at hf
      have h1 := hsz f ((List.takeWhile_prefix _).subset hf)
      have h2 := List.mem_takeWhile_imp hf
      cases hi : f.image with
      | none => simp [hi] at h2
      | some img => simp [failing, h1, hi]
  · rw [finish_fst]
    cases hp : (if nodecode then files else files.takeWhile fun f => f.image.isSome).any
        (panicking nodecode nowrite) with
    | true => simp
    | false =>
      cases ha : (nodecode || files.all (fun f => f.image.isSome)) with
      | false =>
        have := hfat ha
        simp [this]
      | true =>
        have := hzs ha
        cases needsClose <;> simp [this]

theorem cycle_eq (numThreads : Int) (nodecode nowrite closed : Bool) (s : State)
    (hsz : ∀ f ∈ s.ch.take numThreads.toNat, f.size.isNone = false) :
    cycle numThreads nodecode nowrite closed s =
      if numThreads.toNat ≤ s.ch.length then
        finish nodecode nowrite false (s.ch.take numThreads.toNat)
          { s with ch := s.ch.drop numThreads.toNat,
                   trace := s.trace ++ (s.ch.take numThreads.toNat).map Event.draw,
                   totalSize := accum s.totalSize (s.ch.take numThreads.toNat) }
      else if closed then
        finish nodecode nowrite true (s.ch.take numThreads.toNat)
          { s with ch := s.ch.drop numThreads.toNat,
                   trace := s.trace ++ (s.ch.take numThreads.toNat).map Event.draw,
                   totalSize := accum s.totalSize (s.ch.take numThreads.toNat) }
      else
        (some Outcome.blocked,
          { s with ch := s.ch.drop numThreads.toNat,
                   trace := s.trace ++ (s.ch.take numThreads.toNat).map Event.draw,
                   totalSize := accum s.totalSize (s.ch.take numThreads.toNat) }) := by
  have hco := collect_ok closed numThreads.toNat [] s hsz
  rw [List.nil_append] at hco
  by_cases hlen : numThreads.toNat ≤ s.ch.length
  · simp only [cycle, hco, collectEnd, hlen, if_true]
  · cases closed <;> simp only [cycle, hco, collectEnd, hlen, if_true, if_false, Bool.false_eq_true]

theorem cycle_step (numThreads : Int) (nodecode nowrite closed : Bool) (s : State) :
    ∃ zs : List File,
      frames (cycle numThreads nodecode nowrite closed s).2.trace =
        frames s.trace ++ cut nowrite (images nodecode zs) ∧
      zs <+: s.ch ∧ (∀ f ∈ zs, failing nodecode f = false) ∧
      ((cycle numThreads nodecode nowrite closed s).1 = none →
        zs = s.ch.take numThreads.toNat ∧
        (cycle numThreads nodecode nowrite closed s).2.ch = s.ch.drop numThreads.toNat ∧
        numThreads.toNat ≤ s.ch.length ∧ zs.any (panicking nodecode nowrite) = false) ∧
      (∀ o, (cycle numThreads nodecode nowrite closed s).1 = some o →
        EndsBy nodecode nowrite closed s.ch zs o) := by
  have himg0 : cut nowrite (images nodecode []) = [] := by cases nodecode <;> rfl
  cases hsz : (s.ch.take numThreads.toNat).any (fun f => f.size.isNone) with
  | true =>
    have hc := collect_fatal closed numThreads.toNat [] s hsz
    have hfail : s.ch.any (failing nodecode) = true := by
      rw [List.any_eq_true] at hsz ⊢
      obtain ⟨f, hf, h⟩ := hsz
      exact ⟨f, List.mem_of_mem_take hf, by simp [failing, h]⟩
    refine ⟨[], ?_, List.nil_prefix, by simp, ?_, ?_⟩
    · simp only [cycle, hc]
      rw [collect_frames, himg0, List.append_nil]
    · simp [cycle, hc]
    · intro o ho
      simp only [cycle, hc, Option.some.injEq] at ho
      subst ho
      exact ⟨hfail, rfl⟩
  | false =>
    have hsz2 : ∀ f ∈ s.ch.take numThreads.toNat, f.size.isNone = false :=
      forall_of_any_false _ _ hsz
    have hcy := cycle_eq numThreads nodecode nowrite closed s hsz2
    have htake_fail : (s.ch.take numThreads.toNat).any (failing nodecode) = true →
        s.ch.any (failing nodecode) = true := by
      intro h
      rw [any_take_drop (failing nodecode) numThreads.toNat s.ch, h]
      rfl
    by_cases hlen : numThreads.toNat ≤ s.ch.length
    · simp only [hlen, if_true] at hcy
      obtain ⟨zs, h1, h2, h3, h4, h5, h6, h7, h8, h9⟩ :=
        finish_step nodecode nowrite false (s.ch.take numThreads.toNat)
          { s with ch := s.ch.drop numThreads.toNat,
                   trace := s.trace ++ (s.ch.take numThreads.toNat).map Event.draw,
                   totalSize := accum s.totalSize (s.ch.take numThreads.toNat) } hsz2
      rw [hcy]
      refine ⟨zs, ?_, h2.trans (List.take_prefix _ _), h3, ?_, ?_⟩
      · rw [h1]
        simp only [frames_append, frames_map_draw, List.append_nil]
      · intro hnone
        obtain ⟨g1, _, g3⟩ := h4 hnone
        exact ⟨g1, finish_ch _ _ _ _ _, hlen, g3⟩
      · intro o ho
        cases o with
        | done => exact absurd (h5 ho).2.1 (by decide)
        | panic => exact h6 ho
        | fatal => exact ⟨htake_fail (h7 ho).1, (h7 ho).2⟩
        | blocked => exact absurd ho h8
        | outOfFuel => exact absurd ho h9
    · cases closed with
      | true =>
        simp only [hlen, if_true, if_false] at hcy
        have htake : s.ch.take numThreads.toNat = s.ch := List.take_of_length_le (by omega)
        obtain ⟨zs, h1, h2, h3, h4, h5, h6, h7, h8, h9⟩ :=
          finish_step nodecode nowrite true (s.ch.take numThreads.toNat)
            { s with ch := s.ch.drop numThreads.toNat,
                     trace := s.trace ++ (s.ch.take numThreads.toNat).map Event.draw,
                     totalSize := accum s.totalSize (s.ch.take numThreads.toNat) } hsz2
        rw [hcy]
        refine ⟨zs, ?_, h2.trans (List.take_prefix _ _), h3, ?_, ?_⟩
        · rw [h1]
          simp only [frames_append, frames_map_draw, List.append_nil]
        · intro hnone
          exact absurd (h4 hnone).2.1 (by decide)
        · intro o ho
          cases o with
          | done =>
            obtain ⟨g1, _, g3⟩ := h5 ho
            exact ⟨g1.trans htake, rfl, g3⟩
          | panic => exact h6 ho
          | fatal => exact ⟨htake_fail (h7 ho).1, (h7 ho).2⟩
          | blocked => exact absurd ho h8
          | outOfFuel => exact absurd ho h9
      | false =>
        simp only [hlen, if_false, Bool.false_eq_true] at hcy
        rw [hcy]
        refine ⟨[], ?_, List.nil_prefix, by simp, ?_, ?_⟩
        · simp only [frames_append, frames_map_draw, List.append_nil, himg0]
        · intro h
          exact absurd h (by simp)
        · intro o ho
          simp only [Option.some.injEq] at ho
          subst ho
          exact ⟨rfl, rfl⟩

theorem multi_run (numThreads : Int) (nodecode nowrite closed : Bool) (hN : 1 ≤ numThreads)
    (fuel : Nat) (s : State) (hfuel : s.ch.length < fuel) :
    ∃ zs : List File,
      frames (multiThreadDecoder numThreads nodecode nowrite closed fuel s).state.trace =
        frames s.trace ++ cut nowrite (images nodecode zs) ∧
      zs <+: s.ch ∧ (∀ f ∈ zs, failing nodecode f = false) ∧
      EndsBy nodecode nowrite closed s.ch zs
        (multiThreadDecoder numThreads nodecode nowrite closed fuel s).outcome := by
  have hk : 1 ≤ numThreads.toNat := by omega
  induction fuel generalizing s with
  | zero => omega
  | succ fuel ih =>
    obtain ⟨zs, h1, h2, h3, h4, h5⟩ := cycle_step numThreads nodecode nowrite closed s
    cases hc : cycle numThreads nodecode nowrite closed s with
    | mk o s1 =>
      rw [hc] at h1 h4 h5
      cases o with
      | some o =>
        refine ⟨zs, ?_, h2, h3, ?_⟩
        · simp only [multiThreadDecoder, hc]
          exact h1
        · simp only [multiThreadDecoder, hc]
          exact h5 o rfl
      | none =>
        obtain ⟨hz, hch, hlen, hpan⟩ := h4 rfl
        simp only at hch h1
        obtain ⟨ys, g1, g2, g3, g4⟩ := ih s1 (by rw [hch, List.length_drop]; omega)
        have hrej : (images nodecode zs).any (rejects nowrite) = false := by
          rw [images_any_rejects]
          exact hpan
        have hpre : zs ++ ys <+: s.ch := by
          rw [hch] at g2
          obtain ⟨t, ht⟩ := g2
          refine ⟨t, ?_⟩
          rw [hz, List.append_assoc, ht, List.take_append_drop]
        refine ⟨zs ++ ys, ?_, hpre, ?_, ?_⟩
        · simp only [multiThreadDecoder, hc]
          rw [g1, h1, images_append, cut_append_ok nowrite _ _ hrej, List.append_assoc,
            cut_ok nowrite _ hrej]
        · intro f hf
          rcases List.mem_append.1 hf with hf | hf
          · exact h3 f hf
          · exact g3 f hf
        · simp only [multiThreadDecoder, hc]
          rw [hch] at g4
          cases ho : (multiThreadDecoder numThreads nodecode nowrite closed fuel s1).outcome with
          | done =>
            rw [ho] at g4
            obtain ⟨e1, e2, e3⟩ := g4
            refine ⟨?_, e2, ?_⟩
            · rw [e1, hz, List.take_append_drop]
            · rw [List.any_append, hpan, e3]
              rfl
          | panic =>
            rw [ho] at g4
            show (zs ++ ys).any (panicking nodecode nowrite) = true
            rw [List.any_append, show ys.any (panicking nodecode nowrite) = true from g4]
            simp
          | fatal =>
            rw [ho] at g4
            refine ⟨?_, ?_⟩
            · rw [any_take_drop (failing nodecode) numThreads.toNat s.ch, g4.1]
              simp
            · rw [List.any_append, hpan, g4.2]
              rfl
          | blocked =>
            rw [ho] at g4
            refine ⟨g4.1, ?_⟩
            rw [List.any_append, hpan, g4.2]
            rfl
          | outOfFuel =>
            rw [ho] at g4
            exact g4

/-! ## Runs without a handle that ends the process -/

theorem multi_ok (numThreads : Int) (nodecode nowrite : Bool) (hN : 1 ≤ numThreads)
    (fuel : Nat) (s : State) (h : ∀ f ∈ s.ch, bad nodecode nowrite f = false)
    (hfuel : s.ch.length < fuel) :
    multiThreadDecoder numThreads nodecode nowrite true fuel s =
      ⟨⟨[], s.trace ++ (batchesOf numThreads.toNat fuel s.ch).flatMap (batchTrace nodecode) ++
              [Event.closeChw],
          accum s.totalSize s.ch, s.batches ++ batchesOf numThreads.toNat fuel s.ch⟩,
        Outcome.done⟩ := by
  have hk : 1 ≤ numThreads.toNat := by omega
  induction fuel generalizing s with
  | zero => omega
  | succ fuel ih =>
    have hsz : ∀ f ∈ s.ch.take numThreads.toNat, f.size.isNone = false :=
      fun f hf => ((failing_false_iff nodecode f).1
        ((bad_false_iff nodecode nowrite f).1 (h f (List.mem_of_mem_take hf))).1).1
    have hgood : ∀ f ∈ s.ch.take numThreads.toNat, bad nodecode nowrite f = false :=
      fun f hf => h f (List.mem_of_mem_take hf)
    simp only [multiThreadDecoder, cycle_eq numThreads nodecode nowrite true s hsz]
    by_cases hlen : numThreads.toNat ≤ s.ch.length
    · have hnot : ¬ s.ch.length < numThreads.toNat := by omega
      simp only [hlen, if_true]
      rw [finish_ok nodecode nowrite false _ _ hgood]
      simp only [Bool.false_eq_true, if_false]
      rw [ih]
      · simp only [batchesOf, hnot, if_false, List.flatMap_cons, batchTrace]
        rw [← accum_append, List.take_append_drop]
        simp [List.append_assoc]
      · intro f hf
        exact h f (List.mem_of_mem_drop hf)
      · simp only [List.length_drop]
        omega
    · have hlt : s.ch.length < numThreads.toNat := by omega
      have htake : s.ch.take numThreads.toNat = s.ch := List.take_of_length_le (by omega)
      have hdrop : s.ch.drop numThreads.toNat = [] := List.drop_of_length_le (by omega)
      simp only [hlen, if_false, if_true]
      rw [finish_ok nodecode nowrite true _ _ hgood]
      simp [batchesOf, hlt, htake, hdrop, batchTrace, List.append_assoc]

theorem single_ok (nodecode nowrite : Bool) (hs : List File) (s : State)
    (h : ∀ f ∈ hs, bad nodecode nowrite f = false) :
    singleLoop nodecode nowrite true hs s =
      ⟨⟨[], s.trace ++ hs.flatMap (fun f => batchTrace nodecode ([f], true)) ++ [Event.closeChw],
          accum s.totalSize hs, s.batches⟩, Outcome.done⟩ := by
  induction hs generalizing s with
  | nil => simp [singleLoop, accum]
  | cons f rest ih =>
    have hb := (bad_false_iff nodecode nowrite f).1 (h f (by simp))
    have hf := (failing_false_iff nodecode f).1 hb.1
    have hrest : ∀ g ∈ rest, bad nodecode nowrite g = false := fun g hg => h g (by simp [hg])
    obtain ⟨sz, hsz⟩ : ∃ sz, f.size = some sz := by
      cases hs : f.size with
      | none => simp [hs] at hf
      | some sz => exact ⟨sz, rfl⟩
    cases nodecode with
    | true =>
      simp only [singleLoop, hsz, if_true]
      rw [ih _ hrest]
      simp [accum, hsz, batchTrace, sends]
    | false =>
      obtain ⟨img, himg⟩ : ∃ img, f.image = some img := by
        cases hs : f.image with
        | none => simp [hs] at hf
        | some img => exact ⟨img, rfl⟩
      have hr : rejects nowrite img = false := by simpa [panicking, himg] using hb.2
      simp only [singleLoop, hsz, himg, hr, Bool.false_eq_true, if_false]
      rw [ih _ hrest]
      simp [accum, hsz, batchTrace, sends, himg]

theorem single_good (nodecode nowrite : Bool) (hs : List File)
    (h : ∀ f ∈ hs, bad nodecode nowrite f = false) :
    (singleThreadDecoder nodecode nowrite true (State.init hs)).outcome = Outcome.done ∧
    frames (singleThreadDecoder nodecode nowrite true (State.init hs)).state.trace =
      images nodecode hs ∧
    draws (singleThreadDecoder nodecode nowrite true (State.init hs)).state.trace = hs ∧
    closes (singleThreadDecoder nodecode nowrite true (State.init hs)).state.trace = hs ∧
    (singleThreadDecoder nodecode nowrite true (State.init hs)).state.totalSize =
      wrap64 (sumSizes hs) := by
  simp only [singleThreadDecoder, State.init, single_ok nodecode nowrite hs _ h, List.nil_append,
    singles_flatMap, frames_append, draws_append, closes_append, frames_batches, draws_batches,
    closes_batches, singles_flatten, frames_closeChw, draws_closeChw, closes_closeChw,
    List.append_nil, accum_zero, and_self]

theorem multi_good (numThreads : Int) (nodecode nowrite : Bool) (fuel : Nat) (hs : List File)
    (hN : 1 ≤ numThreads) (hfuel : hs.length < fuel)
    (h : ∀ f ∈ hs, bad nodecode nowrite f = false) :
    (multiThreadDecoder numThreads nodecode nowrite true fuel (State.init hs)).outcome =
      Outcome.done ∧
    frames (multiThreadDecoder numThreads nodecode nowrite true fuel
      (State.init hs)).state.trace = images nodecode hs ∧
    draws (multiThreadDecoder numThreads nodecode nowrite true fuel
      (State.init hs)).state.trace = hs ∧
    closes (multiThreadDecoder numThreads nodecode nowrite true fuel
      (State.init hs)).state.trace = hs ∧
    (multiThreadDecoder numThreads nodecode nowrite true fuel (State.init hs)).state.totalSize =
      wrap64 (sumSizes hs) := by
  have hk : 1 ≤ numThreads.toNat := by omega
  rw [multi_ok numThreads nodecode nowrite hN fuel (State.init hs) h hfuel]
  simp only [State.init, List.nil_append, frames_append, draws_append, closes_append,
    frames_batches, draws_batches, closes_batches, batchesOf_flatten _ hk fuel hs hfuel,
    frames_closeChw, draws_closeChw, closes_closeChw, List.append_nil, accum_zero, and_self]

/-! ## How a run ends -/

theorem forall_not_bad (nodecode nowrite : Bool) (hs : List File)
    (h : hs.any (bad nodecode nowrite) = false) : ∀ f ∈ hs, bad nodecode nowrite f = false :=
  forall_of_any_false _ hs h

theorem single_done (nodecode nowrite : Bool) (hs : List File) (s : State)
    (h : hs.any (bad nodecode nowrite) = false) :
    (singleLoop nodecode nowrite true hs s).outcome = Outcome.done := by
  rw [single_ok nodecode nowrite hs s (forall_not_bad nodecode nowrite hs h)]

theorem single_failed (nodecode nowrite closed : Bool) (hs : List File) (s : State)
    (h : hs.any (bad nodecode nowrite) = true) :
    (singleLoop nodecode nowrite closed hs s).outcome = Outcome.fatal ∨
      (singleLoop nodecode nowrite closed hs s).outcome = Outcome.panic := by
  induction hs generalizing s with
  | nil => simp at h
  | cons f rest ih =>
    cases hsz : f.size with
    | none => simp [singleLoop, hsz]
    | some sz =>
      cases nodecode with
      | true =>
        simp only [singleLoop, hsz, if_true]
        apply ih
        simpa [bad, failing, panicking, hsz] using h
      | false =>
        cases himg : f.image with
        | none => simp [singleLoop, hsz, himg]
        | some img =>
          cases hr : rejects nowrite img with
          | true => simp [singleLoop, hsz, himg, hr]
          | false =>
            simp only [singleLoop, hsz, himg, hr, Bool.false_eq_true, if_false]
            apply ih
            simpa [bad, failing, panicking, hsz, himg, hr] using h

theorem multi_done (numThreads : Int) (nodecode nowrite : Bool) (hN : 1 ≤ numThreads)
    (fuel : Nat) (s : State) (hfuel : s.ch.length < fuel)
    (h : s.ch.any (bad nodecode nowrite) = false) :
    (multiThreadDecoder numThreads nodecode nowrite true fuel s).outcome = Outcome.done := by
  rw [multi_ok numThreads nodecode nowrite hN fuel s (forall_not_bad nodecode nowrite _ h) hfuel]

theorem multi_failed (numThreads : Int) (nodecode nowrite : Bool) (hN : 1 ≤ numThreads)
    (fuel : Nat) (s : State) (hfuel : s.ch.length < fuel)
    (h : s.ch.any (bad nodecode nowrite) = true) :
    (multiThreadDecoder numThreads nodecode nowrite true fuel s).outcome = Outcome.fatal ∨
      (multiThreadDecoder numThreads nodecode nowrite true fuel s).outcome = Outcome.panic := by
  obtain ⟨zs, _, h2, h3, h4⟩ := multi_run numThreads nodecode nowrite true hN fuel s hfuel
  cases ho : (multiThreadDecoder numThreads nodecode nowrite true fuel s).outcome with
  | done =>
    rw [ho] at h4
    obtain ⟨e1, _, e3⟩ := h4
    subst e1
    rw [List.any_eq_true] at h
    obtain ⟨f, hf, hb⟩ := h
    have h1 := h3 f hf
    have h5 := forall_of_any_false _ _ e3 f hf
    simp [bad, h1, h5] at hb
  | fatal => exact Or.inl rfl
  | panic => exact Or.inr rfl
  | blocked =>
    rw [ho] at h4
    exact absurd h4 (by simp [EndsBy])
  | outOfFuel =>
    rw [ho] at h4
    exact absurd h4 (by simp [EndsBy])

/-! ## The reader -/


theorem reader_closed (fs : FS) (names : List (List Byte)) (n : Nat) :
    (readerLoop fs names n).2 = names.all fun p => (fs p).isSome := by
  induction names generalizing n with
  | nil => rfl
  | cons v rest ih =>
    cases h : fs v with
    | none => simp [readerLoop, h]
    | some d => simp [readerLoop, h, ih]

theorem reader_length_le (fs : FS) (names : List (List Byte)) (n : Nat) :
    (readerLoop fs names n).1.length ≤ names.length := by
  induction names generalizing n with
  | nil => simp [readerLoop]
  | cons v rest ih =>
    cases h : fs v with
    | none => simp [readerLoop, h]
    | some d =>
      simp only [readerLoop, h, List.length_cons]
      exact Nat.succ_le_succ (ih (n + 1))

theorem reader_any (fs : FS) (nodecode nowrite : Bool) (names : List (List Byte)) (n : Nat)
    (h : (readerLoop fs names n).2 = true) :
    (readerLoop fs names n).1.any (bad nodecode nowrite) =
      names.any (badPath fs nodecode nowrite) := by
  induction names generalizing n with
  | nil => rfl
  | cons v rest ih =>
    cases hv : fs v with
    | none => simp [readerLoop, hv] at h
    | some d =>
      simp only [readerLoop, hv] at h
      simp only [readerLoop, hv, List.any_cons, ih (n + 1) h, badPath]
      rfl

theorem reader_fatal_any (fs : FS) (nodecode nowrite : Bool) (names : List (List Byte))
    (n : Nat) (h : (readerLoop fs names n).2 = false) :
    names.any (badPath fs nodecode nowrite) = true := by
  induction names generalizing n with
  | nil => simp [readerLoop] at h
  | cons v rest ih =>
    cases hv : fs v with
    | none => simp [badPath, hv]
    | some d =>
      simp only [readerLoop, hv] at h
      simp [ih (n + 1) h]

theorem reader_images (fs : FS) (names : List (List Byte)) (n : Nat)
    (h : (readerLoop fs names n).2 = true) :
    (readerLoop fs names n).1.map (fun f => f.image) = names.map (decodePath fs) := by
  induction names generalizing n with
  | nil => rfl
  | cons v rest ih =>
    cases hv : fs v with
    | none => simp [readerLoop, hv] at h
    | some d =>
      simp only [readerLoop, hv] at h
      simp [readerLoop, hv, ih (n + 1) h, decodePath]

theorem reader_sizes (fs : FS) (names : List (List Byte)) (n : Nat)
    (h : (readerLoop fs names n).2 = true) :
    sumSizes (readerLoop fs names n).1 = pathSizes fs names := by
  induction names generalizing n with
  | nil => rfl
  | cons v rest ih =>
    cases hv : fs v with
    | none => simp [readerLoop, hv] at h
    | some d =>
      simp only [readerLoop, hv] at h
      have := ih (n + 1) h
      simp only [sumSizes, pathSizes] at this ⊢
      simp [readerLoop, hv, this, statPath]

theorem filterMap_map_some (hs : List File) (h : ∀ f ∈ hs, f.image.isNone = false) :
    (hs.filterMap fun f => f.image).map some = hs.map fun f => f.image := by
  induction hs with
  | nil => rfl
  | cons f rest ih =>
    have hf := h f (by simp)
    cases hi : f.image with
    | none => simp [hi] at hf
    | some img =>
      simp [List.filterMap_cons, hi, ih (fun g hg => h g (by simp [hg]))]

theorem failingPath_iff (fs : FS) (nodecode : Bool) (p : List Byte) :
    failingPath fs nodecode p = true ↔
      FailsOpen fs p ∨ FailsStat fs p ∨ (nodecode = false ∧ FailsDecode fs p) := by
  unfold failingPath FailsOpen FailsStat FailsDecode
  cases h : fs p with
  | none => simp
  | some d => cases nodecode <;> simp

theorem badPath_iff (fs : FS) (nodecode nowrite : Bool) (p : List Byte) :
    badPath fs nodecode nowrite p = true ↔
      FailsOpen fs p ∨ FailsStat fs p ∨ (nodecode = false ∧ FailsDecode fs p) ∨
        (nodecode = false ∧ nowrite = false ∧ NotYCbCr fs p) := by
  unfold badPath FailsOpen FailsStat FailsDecode NotYCbCr
  cases h : fs p with
  | none => simp
  | some d =>
    cases hi : d.image with
    | none => cases nodecode <;> cases nowrite <;> simp [bad, failing, panicking, hi]
    | some img =>
      cases nodecode <;> cases nowrite <;> simp [bad, failing, panicking, hi, rejects]

theorem pipeline_done (numThreads : Int) (nodecode nowrite : Bool) (fs : FS) (fuel : Nat)
    (names : List (List Byte)) (hN : 1 ≤ numThreads) (hfuel : names.length < fuel)
    (h : names.any (badPath fs nodecode nowrite) = false) :
    (pipeline numThreads nodecode nowrite fs fuel names).outcome = Outcome.done := by
  simp only [pipeline, singleThreadReader]
  cases hr : (readerLoop fs names 0).2 with
  | false =>
    rw [reader_fatal_any fs nodecode nowrite names 0 hr] at h
    exact absurd h (by decide)
  | true =>
    have hlen := reader_length_le fs names 0
    simp only [if_true, decoder]
    rw [← reader_any fs nodecode nowrite names 0 hr] at h
    by_cases h1 : numThreads = 1
    · simp only [h1, if_true, singleThreadDecoder, State.init]
      exact single_done nodecode nowrite _ _ h
    · simp only [h1, if_false]
      exact multi_done numThreads nodecode nowrite hN fuel _
        (by simp only [State.init]; omega) h

theorem pipeline_failed (numThreads : Int) (nodecode nowrite : Bool) (fs : FS) (fuel : Nat)
    (names : List (List Byte)) (hN : 1 ≤ numThreads) (hfuel : names.length < fuel)
    (h : names.any (badPath fs nodecode nowrite) = true) :
    Failed (pipeline numThreads nodecode nowrite fs fuel names) := by
  simp only [pipeline, singleThreadReader, Failed]
  cases hr : (readerLoop fs names 0).2 with
  | false =>
    simp only [Bool.false_eq_true, if_false]
    split
    · rename_i hp
      exact Or.inr hp
    · exact Or.inl rfl
  | true =>
    have hlen := reader_length_le fs names 0
    simp only [if_true, decoder]
    rw [← reader_any fs nodecode nowrite names 0 hr] at h
    by_cases h1 : numThreads = 1
    · simp only [h1, if_true, singleThreadDecoder, State.init]
      exact single_failed nodecode nowrite true _ _ h
    · simp only [h1, if_false]
      exact multi_failed numThreads nodecode nowrite hN fuel _
        (by simp only [State.init]; omega) h

theorem reader_good (fs : FS) (nodecode nowrite : Bool) (names : List (List Byte)) (n : Nat)
    (h : ∀ p ∈ names, badPath fs nodecode nowrite p = false) :
    (readerLoop fs names n).2 = true ∧
      (readerLoop fs names n).1.length = names.length ∧
      ∀ f ∈ (readerLoop fs names n).1, bad nodecode nowrite f = false := by
  induction names generalizing n with
  | nil => simp [readerLoop]
  | cons v rest ih =>
    have hv := h v (by simp)
    obtain ⟨h1, h2, h3⟩ := ih (n + 1) (fun p hp => h p (by simp [hp]))
    cases hfs : fs v with
    | none => simp [badPath, hfs] at hv
    | some d =>
      simp only [badPath, hfs] at hv
      refine ⟨by simp [readerLoop, hfs, h1], by simp [readerLoop, hfs, h2], ?_⟩
      intro f hf
      simp only [readerLoop, hfs, List.mem_cons] at hf
      rcases hf with rfl | hf
      · exact hv
      · exact h3 f hf

/-! ## The frames of a run that may fail -/


theorem images_mono (nodecode : Bool) (zs hs : List File) (h : zs <+: hs) :
    images nodecode zs <+: images nodecode hs := by
  obtain ⟨t, rfl⟩ := h
  rw [images_append]
  exact List.prefix_append _ _

theorem prefix_okPrefix (nodecode : Bool) (zs hs : List File) (h : zs <+: hs)
    (hz : ∀ f ∈ zs, failing nodecode f = false) : zs <+: okPrefix nodecode hs := by
  obtain ⟨t, rfl⟩ := h
  unfold okPrefix
  rw [List.takeWhile_append_of_pos (fun f hf => by simp [hz f hf])]
  exact List.prefix_append _ _

theorem single_frames (nodecode nowrite closed : Bool) (hs : List File) (s : State) :
    frames (singleLoop nodecode nowrite closed hs s).state.trace =
      frames s.trace ++ cut nowrite (images nodecode (okPrefix nodecode hs)) := by
  induction hs generalizing s with
  | nil =>
    cases closed <;> cases nodecode <;>
      simp [singleLoop, okPrefix, images, cut, frames_append, frames]
  | cons f rest ih =>
    cases hsz : f.size with
    | none =>
      cases nodecode <;>
        simp [singleLoop, hsz, okPrefix, failing, images, cut, frames_append, frames]
    | some sz =>
      cases nodecode with
      | true =>
        simp only [singleLoop, hsz, if_true]
        rw [ih]
        simp [images, cut, frames_append, frames]
      | false =>
        cases himg : f.image with
        | none =>
          simp [singleLoop, hsz, himg, okPrefix, failing, images, cut, frames_append, frames]
        | some img =>
          have hok : okPrefix false (f :: rest) = f :: okPrefix false rest := by
            simp [okPrefix, List.takeWhile_cons, failing, hsz, himg]
          have him : images false (f :: okPrefix false rest) =
              img :: images false (okPrefix false rest) := by
            simp [images, himg]
          rw [hok, him]
          cases hr : rejects nowrite img with
          | true => simp [singleLoop, hsz, himg, hr, cut, frames_append, frames]
          | false =>
            simp only [singleLoop, hsz, himg, hr, Bool.false_eq_true, if_false]
            rw [ih]
            simp [cut, hr, frames_append, frames]


theorem okPrefix_cons (nodecode : Bool) (f : File) (hs : List File) :
    okPrefix nodecode (f :: hs) =
      if failing nodecode f then [] else f :: okPrefix nodecode hs := by
  cases h : failing nodecode f <;> simp [okPrefix, List.takeWhile_cons, h]

theorem okPaths_cons (fs : FS) (nodecode : Bool) (p : List Byte) (names : List (List Byte)) :
    okPaths fs nodecode (p :: names) =
      if failingPath fs nodecode p then [] else p :: okPaths fs nodecode names := by
  cases h : failingPath fs nodecode p <;> simp [okPaths, List.takeWhile_cons, h]

theorem reader_okPrefix (fs : FS) (names : List (List Byte)) (n : Nat) :
    ((okPrefix false (readerLoop fs names n).1).filterMap fun f => f.image) =
      (okPaths fs false names).filterMap (decodePath fs) := by
  induction names generalizing n with
  | nil => rfl
  | cons v rest ih =>
    rw [okPaths_cons]
    cases hv : fs v with
    | none =>
      have hfp : failingPath fs false v = true := by simp [failingPath, hv]
      simp only [readerLoop, hv, hfp, if_true]
      rfl
    | some d =>
      have hfp : failingPath fs false v = failing false ⟨n, d.size, d.image⟩ := by
        simp [failingPath, hv, failing]
      simp only [readerLoop, hv, okPrefix_cons, hfp]
      cases hf : failing false ⟨n, d.size, d.image⟩ with
      | true => simp
      | false =>
        simp only [Bool.false_eq_true, if_false, List.filterMap_cons, ih (n + 1), decodePath, hv]
        rfl

/-! ## The lines `readStdin` returns -/

theorem ReadString_line (l rest : List Byte) (h : (10 : Byte) ∉ l) :
    ReadString 10 (l ++ 10 :: rest) = (l ++ [10], false, rest) := by
  induction l with
  | nil => simp [ReadString]
  | cons b bs ih =>
    have hb : b ≠ 10 := fun hb => h (by simp [hb])
    have hbs : (10 : Byte) ∉ bs := fun hm => h (by simp [hm])
    simp [ReadString, hb, ih hbs]

theorem ReadString_eof (t : List Byte) (h : (10 : Byte) ∉ t) :
    ReadString 10 t = (t, true, []) := by
  induction t with
  | nil => simp [ReadString]
  | cons b bs ih =>
    have hb : b ≠ 10 := fun hb => h (by simp [hb])
    have hbs : (10 : Byte) ∉ bs := fun hm => h (by simp [hm])
    simp [ReadString, hb, ih hbs]

theorem readStdinLoop_lines (fuel : Nat) (lines : List (List Byte)) (t : List Byte)
    (acc : List (List Byte)) (h1 : ∀ l ∈ lines, (10 : Byte) ∉ l) (h2 : (10 : Byte) ∉ t)
    (hfuel : lines.length < fuel) :
    readStdinLoop fuel (lines.flatMap (fun l => l ++ [10]) ++ t) acc = some (acc ++ lines) := by
  induction lines generalizing fuel acc with
  | nil =>
    cases fuel with
    | zero => simp at hfuel
    | succ n => simp [readStdinLoop, ReadString_eof t h2]
  | cons l rest ih =>
    cases fuel with
    | zero => simp at hfuel
    | succ n =>
      have hl : (10 : Byte) ∉ l := h1 l (by simp)
      have hrest : ∀ x ∈ rest, (10 : Byte) ∉ x := fun x hx => h1 x (by simp [hx])
      have hin : (l :: rest).flatMap (fun l => l ++ [10]) ++ t =
          l ++ 10 :: (rest.flatMap (fun l => l ++ [10]) ++ t) := by
        simp [List.flatMap_cons, List.append_assoc]
      rw [hin]
      simp only [readStdinLoop, ReadString_line l _ hl, Bool.false_eq_true, if_false]
      rw [ih n _ hrest (by simpa using hfuel)]
      simp

theorem length_le_flatMap (lines : List (List Byte)) :
    lines.length ≤ (lines.flatMap fun l => l ++ [10]).length := by
  induction lines with
  | nil => simp
  | cons l rest ih =>
    simp only [List.flatMap_cons, List.length_append, List.length_cons, List.length_nil]
    omega

theorem readStdin_lines (lines : List (List Byte)) (t : List Byte)
    (h1 : ∀ l ∈ lines, (10 : Byte) ∉ l) (h2 : (10 : Byte) ∉ t) :
    readStdin (lines.flatMap (fun l => l ++ [10]) ++ t) = some lines := by
  unfold readStdin
  rw [readStdinLoop_lines _ lines t [] h1 h2]
  · simp
  · have := length_le_flatMap lines
    simp only [List.length_append]
    omega

theorem exists_lines (input : List Byte) :
    ∃ (lines : List (List Byte)) (t : List Byte),
      (∀ l ∈ lines, (10 : Byte) ∉ l) ∧ (10 : Byte) ∉ t ∧
      input = lines.flatMap (fun l => l ++ [10]) ++ t := by
  induction input with
  | nil => exact ⟨[], [], by simp, by simp, by simp⟩
  | cons b rest ih =>
    obtain ⟨lines, t, h1, h2, h3⟩ := ih
    by_cases hb : b = 10
    · refine ⟨[] :: lines, t, ?_, h2, ?_⟩
      · intro l hl
        rcases List.mem_cons.1 hl with rfl | hl
        · simp
        · exact h1 l hl
      · simp [List.flatMap_cons, hb, h3]
    · cases lines with
      | nil =>
        refine ⟨[], b :: t, by simp, ?_, by simpa using h3⟩
        intro hm
        rcases List.mem_cons.1 hm with h | h
        · exact hb h.symm
        · exact h2 h
      | cons l ls =>
        refine ⟨(b :: l) :: ls, t, ?_, h2, ?_⟩
        · intro x hx
          rcases List.mem_cons.1 hx with rfl | hx
          · intro hm
            rcases List.mem_cons.1 hm with h | h
            · exact hb h.symm
            · exact h1 l (by simp) h
          · exact h1 x (by simp [hx])
        · simp [List.flatMap_cons, h3]

/-! ## The panic of a run is the panic of the loop of `main` -/

theorem sink_panicked (nowrite : Bool) (imgs : List Image) (o : Output) :
    (sink nowrite imgs o).panicked = (o.panicked || imgs.any (rejects nowrite)) := by
  induction imgs generalizing o with
  | nil => simp [sink]
  | cons img rest ih =>
    cases nowrite with
    | true =>
      simp only [sink, if_true]
      rw [ih]
      simp [rejects]
    | false =>
      cases img with
      | ycbcr Y Cb Cr =>
        simp only [sink, Bool.false_eq_true, if_false]
        rw [ih]
        simp [rejects, isYCbCr]
      | other k => simp [sink, rejects, isYCbCr]

theorem cut_any (nowrite : Bool) (xs : List Image) :
    (cut nowrite xs).any (rejects nowrite) = xs.any (rejects nowrite) := by
  induction xs with
  | nil => rfl
  | cons x rest ih =>
    cases hx : rejects nowrite x with
    | true => simp [cut, hx]
    | false => simp [cut, hx, ih]

theorem frames_any_append (nowrite : Bool) (xs ys : List Event) :
    (frames (xs ++ ys)).any (rejects nowrite) =
      ((frames xs).any (rejects nowrite) || (frames ys).any (rejects nowrite)) := by
  rw [frames_append, List.any_append]

theorem single_panic_iff (nodecode nowrite closed : Bool) (hs : List File) (s : State)
    (h : (frames s.trace).any (rejects nowrite) = false) :
    (singleLoop nodecode nowrite closed hs s).outcome = Outcome.panic ↔
      (frames (singleLoop nodecode nowrite closed hs s).state.trace).any (rejects nowrite) =
        true := by
  induction hs generalizing s with
  | nil => cases closed <;> simp [singleLoop, frames_any_append, h, frames]
  | cons f rest ih =>
    cases hsz : f.size with
    | none => simp [singleLoop, hsz, frames_any_append, h, frames]
    | some sz =>
      cases nodecode with
      | true =>
        simp only [singleLoop, hsz, if_true]
        apply ih
        simp [frames_any_append, h, frames]
      | false =>
        cases himg : f.image with
        | none => simp [singleLoop, hsz, himg, frames_any_append, h, frames]
        | some img =>
          cases hr : rejects nowrite img with
          | true => simp [singleLoop, hsz, himg, hr, frames_any_append, frames]
          | false =>
            simp only [singleLoop, hsz, himg, hr, Bool.false_eq_true, if_false]
            apply ih
            simp [frames_any_append, h, frames, hr]

theorem multi_panic_iff (numThreads : Int) (nodecode nowrite closed : Bool)
    (hN : 1 ≤ numThreads) (fuel : Nat) (s : State) (hfuel : s.ch.length < fuel)
    (h : (frames s.trace).any (rejects nowrite) = false) :
    (multiThreadDecoder numThreads nodecode nowrite closed fuel s).outcome = Outcome.panic ↔
      (frames (multiThreadDecoder numThreads nodecode nowrite closed fuel
        s).state.trace).any (rejects nowrite) = true := by
  obtain ⟨zs, h1, _, _, h4⟩ := multi_run numThreads nodecode nowrite closed hN fuel s hfuel
  rw [h1, List.any_append, h, Bool.false_or, cut_any, images_any_rejects]
  cases ho : (multiThreadDecoder numThreads nodecode nowrite closed fuel s).outcome with
  | done =>
    rw [ho] at h4
    simp [h4.2.2]
  | panic =>
    rw [ho] at h4
    have h5 : zs.any (panicking nodecode nowrite) = true := h4
    simp [h5]
  | fatal =>
    rw [ho] at h4
    simp [h4.2]
  | blocked =>
    rw [ho] at h4
    simp [h4.2]
  | outOfFuel =>
    rw [ho] at h4
    exact absurd h4 (by simp [EndsBy])

theorem pipeline_panic_iff (numThreads : Int) (nodecode nowrite : Bool) (fs : FS) (fuel : Nat)
    (names : List (List Byte)) (hN : 1 ≤ numThreads) (hfuel : names.length < fuel) :
    (pipeline numThreads nodecode nowrite fs fuel names).outcome = Outcome.panic ↔
      (sink nowrite (frames (pipeline numThreads nodecode nowrite fs fuel names).state.trace)
        ⟨[], [], false⟩).panicked = true := by
  have hlen := reader_length_le fs names 0
  have hd : (decoder numThreads nodecode nowrite (readerLoop fs names 0).2 fuel
        (readerLoop fs names 0).1).outcome = Outcome.panic ↔
      (frames (decoder numThreads nodecode nowrite (readerLoop fs names 0).2 fuel
        (readerLoop fs names 0).1).state.trace).any (rejects nowrite) = true := by
    by_cases h1 : numThreads = 1
    · simp only [decoder, h1, if_true, singleThreadDecoder]
      exact single_panic_iff nodecode nowrite _ _ _ rfl
    · simp only [decoder, h1, if_false]
      exact multi_panic_iff numThreads nodecode nowrite _ hN fuel _
        (by simp only [State.init]; omega) rfl
  rw [sink_panicked]
  simp only [Bool.false_or, pipeline, singleThreadReader]
  cases hr : (readerLoop fs names 0).2 with
  | true =>
    rw [hr] at hd
    simpa using hd
  | false =>
    rw [hr] at hd
    simp only [Bool.false_eq_true, if_false]
    split
    · rename_i hp
      simp only [hp, true_iff]
      exact hd.1 hp
    · rename_i hp
      constructor
      · intro h
        exact Outcome.noConfusion h
      · intro h
        exact absurd (hd.2 h) hp

/-! ## The sink on YCbCr frames -/

theorem sink_no_panic (nowrite : Bool) (imgs : List Image) (o : Output)
    (h : nowrite = true ∨ ∀ img ∈ imgs, isYCbCr img = true) :
    (sink nowrite imgs o).panicked = o.panicked := by
  induction imgs generalizing o with
  | nil => rfl
  | cons img rest ih =>
    have hrest : nowrite = true ∨ ∀ x ∈ rest, isYCbCr x = true :=
      h.imp id fun hall x hx => hall x (by simp [hx])
    cases nowrite with
    | true =>
      simp only [sink, if_true]
      rw [ih _ hrest]
    | false =>
      have himg : isYCbCr img = true := by
        rcases h with h | h
        · exact absurd h (by decide)
        · exact h img (by simp)
      cases img with
      | ycbcr Y Cb Cr =>
        simp only [sink, Bool.false_eq_true, if_false]
        rw [ih _ hrest]
      | other k => simp [isYCbCr] at himg

theorem okPrefix_eq_self (nodecode : Bool) (hs : List File)
    (h : ∀ f ∈ hs, failing nodecode f = false) : okPrefix nodecode hs = hs := by
  unfold okPrefix
  rw [List.takeWhile_eq_self_iff]
  intro f hf
  simp [h f hf]

theorem images_accepted (nodecode nowrite : Bool) (hs : List File)
    (h : ∀ f ∈ hs, bad nodecode nowrite f = false) :
    nowrite = true ∨ ∀ img ∈ images nodecode hs, isYCbCr img = true := by
  cases nowrite with
  | true => exact Or.inl rfl
  | false =>
    refine Or.inr fun img himg => ?_
    cases nodecode with
    | true => simp [images] at himg
    | false =>
      simp only [images, Bool.false_eq_true, if_false, List.mem_filterMap] at himg
      obtain ⟨f, hf, hfi⟩ := himg
      have hb := ((bad_false_iff false false f).1 (h f hf)).2
      simpa [panicking, hfi, rejects] using hb

theorem not_done_of_failed (r : Run) (h : Failed r) : r.outcome ≠ Outcome.done := by
  rcases h with h | h <;> rw [h] <;> decide

theorem badPath_false_of (fs : FS) (nodecode nowrite : Bool) (p : List Byte)
    (h1 : ∃ d, fs p = some d ∧ d.size ≠ none ∧ (nodecode = false → d.image ≠ none))
    (h2 : nodecode = true ∨ nowrite = true ∨
      ∀ img, decodePath fs p = some img → isYCbCr img = true) :
    badPath fs nodecode nowrite p = false := by
  obtain ⟨d, hd, hsz, himg⟩ := h1
  simp only [badPath, hd]
  refine not_bad_of nodecode nowrite _ hsz fun hn => ?_
  cases hi : d.image with
  | none => exact absurd hi (himg hn)
  | some img =>
    refine ⟨img, rfl, fun hw => ?_⟩
    rcases h2 with h | h | h
    · rw [hn] at h
      exact absurd h (by decide)
    · rw [hw] at h
      exact absurd h (by decide)
    · exact h img (by simp [decodePath, hd, hi])

/-! ## The claims -/

/-- C1 as stated fails: the decoders send on `chw`, which has no buffer, and
`main` panics on a frame that is not a `*image.YCbCr` when it writes.  On
`[a.jpg, gray.jpg, c.jpg]`, three files that open, stat and decode, with
decoding and writing enabled, `main` receives the frames of `a.jpg` and
`gray.jpg` and panics on the second: the frame of `c.jpg` is never
delivered, under `singleThreadDecoder` and under `multiThreadDecoder`. -/
theorem order_fails_on_gray_frame :
    (∀ p ∈ [aJpg, grayJpg, cJpg], ∃ sz img, grayFS p = some ⟨some sz, some img⟩) ∧
    [aJpg, grayJpg, cJpg].map (decodePath grayFS) =
      [some (flatFrame 1), some (Image.other 0), some (flatFrame 3)] ∧
    frames (pipeline 1 false false grayFS 4 [aJpg, grayJpg, cJpg]).state.trace =
      [flatFrame 1, Image.other 0] ∧
    (pipeline 1 false false grayFS 4 [aJpg, grayJpg, cJpg]).outcome = Outcome.panic ∧
    frames (pipeline 2 false false grayFS 4 [aJpg, grayJpg, cJpg]).state.trace =
      [flatFrame 1, Image.other 0] ∧
    (pipeline 2 false false grayFS 4 [aJpg, grayJpg, cJpg]).outcome = Outcome.panic ∧
    (frames (pipeline 2 false false grayFS 4 [aJpg, grayJpg, cJpg]).state.trace).length ≠
      [aJpg, grayJpg, cJpg].length := by
  refine ⟨?_, by decide, by decide, by decide, by decide, by decide, by decide⟩
  intro p hp
  simp only [List.mem_cons, List.mem_singleton, List.not_mem_nil, or_false] at hp
  rcases hp with rfl | rfl | rfl
  · exact ⟨700, flatFrame 1, by decide⟩
  · exact ⟨750, Image.other 0, by decide⟩
  · exact ⟨900, flatFrame 3, by decide⟩

/-- C1, amended.  When every path opens, stats and decodes, with decoding
enabled, and output writing is disabled or every decoded frame is a
`*image.YCbCr`, then for every thread count of at least 1 (so `main` runs
`singleThreadDecoder` for 1 and `multiThreadDecoder` otherwise) the frames
`main` receives on `chw` are, in order, the frames decoded from the paths in
input order, there are as many of them as paths, and the decoder returns.
The step budget `fuel` only has to exceed the number of paths. -/
theorem order_preservation (numThreads : Int) (nowrite : Bool) (fs : FS) (fuel : Nat)
    (names : List (List Byte)) (hN : 1 ≤ numThreads) (hfuel : names.length < fuel)
    (hok : ∀ p ∈ names, ∃ sz img, fs p = some ⟨some sz, some img⟩)
    (hsink : nowrite = true ∨
      ∀ p ∈ names, ∀ img, decodePath fs p = some img → isYCbCr img = true) :
    (frames (pipeline numThreads false nowrite fs fuel names).state.trace).map some =
        names.map (decodePath fs) ∧
      (frames (pipeline numThreads false nowrite fs fuel names).state.trace).length =
        names.length ∧
      (pipeline numThreads false nowrite fs fuel names).outcome = Outcome.done := by
  have hgood : ∀ p ∈ names, badPath fs false nowrite p = false := by
    intro p hp
    obtain ⟨sz, img, h⟩ := hok p hp
    refine badPath_false_of fs false nowrite p ⟨_, h, by simp, by simp⟩ ?_
    rcases hsink with h1 | h1
    · exact Or.inr (Or.inl h1)
    · exact Or.inr (Or.inr (h1 p hp))
  obtain ⟨hclosed, hlen, hfiles⟩ := reader_good fs false nowrite names 0 hgood
  have himg : ∀ f ∈ (readerLoop fs names 0).1, f.image.isNone = false :=
    fun f hf => ((failing_false_iff false f).1
      ((bad_false_iff false nowrite f).1 (hfiles f hf)).1).2 rfl
  have hfr : frames (pipeline numThreads false nowrite fs fuel names).state.trace =
      images false (readerLoop fs names 0).1 := by
    simp only [pipeline, singleThreadReader, hclosed, if_true, decoder]
    by_cases h1 : numThreads = 1
    · simp only [h1, if_true]
      exact (single_good false nowrite _ hfiles).2.1
    · simp only [h1, if_false]
      exact (multi_good numThreads false nowrite fuel _ hN (by omega) hfiles).2.1
  have hmap : (frames (pipeline numThreads false nowrite fs fuel names).state.trace).map some =
      names.map (decodePath fs) := by
    rw [hfr]
    simp only [images, Bool.false_eq_true, if_false]
    rw [filterMap_map_some _ himg, reader_images fs names 0 hclosed]
  refine ⟨hmap, ?_, ?_⟩
  · have := congrArg List.length hmap
    simpa using this
  · refine pipeline_done numThreads false nowrite fs fuel names hN hfuel ?_
    rw [List.any_eq_false]
    intro p hp
    simp [hgood p hp]

/-- C1, amended, at the scenario: three paths, two threads, writing on. -/
theorem order_preservation_witness :
    (1 : Int) ≤ 2 ∧ sampleNames.length < 4 ∧
      (∀ p ∈ sampleNames, ∃ sz img, sampleFS p = some ⟨some sz, some img⟩) ∧
      (false = true ∨
        ∀ p ∈ sampleNames, ∀ img, decodePath sampleFS p = some img → isYCbCr img = true) ∧
      (frames (pipeline 2 false false sampleFS 4 sampleNames).state.trace).map some =
        sampleNames.map (decodePath sampleFS) ∧
      (frames (pipeline 2 false false sampleFS 4 sampleNames).state.trace).length =
        sampleNames.length ∧
      (pipeline 2 false false sampleFS 4 sampleNames).outcome = Outcome.done :=
  have h : ∀ p ∈ sampleNames, ∃ sz img, sampleFS p = some ⟨some sz, some img⟩ := by
    intro p hp
    simp only [sampleNames, List.mem_cons, List.mem_singleton, List.not_mem_nil, or_false] at hp
    rcases hp with rfl | rfl | rfl
    · exact ⟨700, flatFrame 1, by decide⟩
    · exact ⟨800, flatFrame 2, by decide⟩
    · exact ⟨900, flatFrame 3, by decide⟩
  have hy : false = true ∨
      ∀ p ∈ sampleNames, ∀ img, decodePath sampleFS p = some img → isYCbCr img = true := by
    refine Or.inr fun p hp img himg => ?_
    simp only [sampleNames, List.mem_cons, List.mem_singleton, List.not_mem_nil, or_false] at hp
    rcases hp with rfl | rfl | rfl
    · have : decodePath sampleFS aJpg = some (flatFrame 1) := by decide
      rw [this] at himg
      cases himg
      rfl
    · have : decodePath sampleFS bJpg = some (flatFrame 2) := by decide
      rw [this] at himg
      cases himg
      rfl
    · have : decodePath sampleFS cJpg = some (flatFrame 3) := by decide
      rw [this] at himg
      cases himg
      rfl
  ⟨by decide, by decide, h, hy,
    order_preservation 2 false sampleFS 4 sampleNames (by decide) (by decide) h hy⟩

/-- C2 as stated fails: on a handle list whose second `Stat` fails,
`singleThreadDecoder` has sent the first frame before it calls `log.Fatal`,
and `multiThreadDecoder` with batch size 2 calls `log.Fatal` while it still
collects its first batch, before any frame is sent; the bytes the sink
writes differ as well. -/
theorem determinism_fails_on_stat_error :
    frames (multiThreadDecoder 2 false false true 3
        (State.init [goodHandle 0 1, statErrHandle 1 2])).state.trace ≠
      frames (singleThreadDecoder false false true
        (State.init [goodHandle 0 1, statErrHandle 1 2])).state.trace ∧
    (sink false (frames (multiThreadDecoder 2 false false true 3
        (State.init [goodHandle 0 1, statErrHandle 1 2])).state.trace) ⟨[], [], false⟩).stdout ≠
      (sink false (frames (singleThreadDecoder false false true
        (State.init [goodHandle 0 1, statErrHandle 1 2])).state.trace) ⟨[], [], false⟩).stdout := by
  decide

/-- C2, amended.  For every handle list and every batch size of at least 1
the frames `multiThreadDecoder` sends are an initial segment of the frames
`singleThreadDecoder` sends.  When no handle fails (every `Stat` succeeds
and, with decoding enabled, every decode succeeds) the two decoders send the
same frames in the same order, so the sink writes the same output in both
modes. -/
theorem determinism_across_modes (numThreads : Int) (nodecode nowrite : Bool) (fuel : Nat)
    (hs : List File) (o : Output) (hN : 1 ≤ numThreads) (hfuel : hs.length < fuel) :
    frames (multiThreadDecoder numThreads nodecode nowrite true fuel
        (State.init hs)).state.trace <+:
      frames (singleThreadDecoder nodecode nowrite true (State.init hs)).state.trace ∧
    ((∀ f ∈ hs, f.size ≠ none ∧ (nodecode = false → f.image ≠ none)) →
      frames (multiThreadDecoder numThreads nodecode nowrite true fuel
          (State.init hs)).state.trace =
        frames (singleThreadDecoder nodecode nowrite true (State.init hs)).state.trace ∧
      sink nowrite
          (frames (multiThreadDecoder numThreads nodecode nowrite true fuel
            (State.init hs)).state.trace) o =
        sink nowrite
          (frames (singleThreadDecoder nodecode nowrite true (State.init hs)).state.trace) o) := by
  obtain ⟨zs, h1, h2, h3, h4⟩ :=
    multi_run numThreads nodecode nowrite true hN fuel (State.init hs) hfuel
  have hsingle : frames (singleThreadDecoder nodecode nowrite true (State.init hs)).state.trace =
      cut nowrite (images nodecode (okPrefix nodecode hs)) := by
    simp only [singleThreadDecoder, single_frames, State.init, frames, List.nil_append]
  have hmulti : frames (multiThreadDecoder numThreads nodecode nowrite true fuel
      (State.init hs)).state.trace = cut nowrite (images nodecode zs) := by
    rw [h1]
    simp only [State.init, frames, List.nil_append]
  replace h2 : zs <+: hs := h2
  replace h4 : EndsBy nodecode nowrite true hs zs
      (multiThreadDecoder numThreads nodecode nowrite true fuel (State.init hs)).outcome := h4
  constructor
  · rw [hmulti, hsingle]
    exact cut_mono nowrite _ _ (images_mono nodecode _ _ (prefix_okPrefix nodecode zs hs h2 h3))
  · intro hgood
    have h : ∀ f ∈ hs, failing nodecode f = false :=
      fun f hf => not_failing_of_ne nodecode f (hgood f hf).1 (hgood f hf).2
    have heq : cut nowrite (images nodecode zs) = cut nowrite (images nodecode hs) := by
      cases ho : (multiThreadDecoder numThreads nodecode nowrite true fuel
          (State.init hs)).outcome with
      | done =>
        rw [ho] at h4
        rw [h4.1]
      | panic =>
        rw [ho] at h4
        have hrej : (images nodecode zs).any (rejects nowrite) = true := by
          rw [images_any_rejects]
          exact h4
        obtain ⟨t, ht⟩ := h2
        rw [← ht, images_append, cut_append_stop nowrite _ _ hrej]
      | fatal =>
        rw [ho] at h4
        have h5 : hs.any (failing nodecode) = true := h4.1
        rw [List.any_eq_true] at h5
        obtain ⟨f, hf, hb⟩ := h5
        rw [h f hf] at hb
        exact absurd hb (by decide)
      | blocked =>
        rw [ho] at h4
        exact absurd h4 (by simp [EndsBy])
      | outOfFuel =>
        rw [ho] at h4
        exact absurd h4 (by simp [EndsBy])
    rw [hmulti, hsingle, okPrefix_eq_self nodecode hs h, heq]
    exact ⟨rfl, rfl⟩

/-- C2, amended, at three handles and batch size 2. -/
theorem determinism_across_modes_witness :
    (1 : Int) ≤ 2 ∧ [goodHandle 0 1, goodHandle 1 2, goodHandle 2 3].length < 4 ∧
    (∀ f ∈ [goodHandle 0 1, goodHandle 1 2, goodHandle 2 3],
      f.size ≠ none ∧ (false = false → f.image ≠ none)) ∧
    frames (multiThreadDecoder 2 false false true 4
        (State.init [goodHandle 0 1, goodHandle 1 2, goodHandle 2 3])).state.trace =
      frames (singleThreadDecoder false false true
        (State.init [goodHandle 0 1, goodHandle 1 2, goodHandle 2 3])).state.trace ∧
    sink false
        (frames (multiThreadDecoder 2 false false true 4
          (State.init [goodHandle 0 1, goodHandle 1 2, goodHandle 2 3])).state.trace)
        ⟨[], [], false⟩ =
      sink false
        (frames (singleThreadDecoder false false true
          (State.init [goodHandle 0 1, goodHandle 1 2, goodHandle 2 3])).state.trace)
        ⟨[], [], false⟩ :=
  ⟨by decide, by decide, by decide,
    (determinism_across_modes 2 false false 4 [goodHandle 0 1, goodHandle 1 2, goodHandle 2 3]
      ⟨[], [], false⟩ (by decide) (by decide)).2 (by decide)⟩


/-- C3 as stated fails: `totalSize` is an `int64`.  With `a.jpg` of 2^62
bytes listed twice the pipeline returns normally, the sizes sum to 2^63, and
`totalSize` ends at -2^63: so with decoding skipped under
`singleThreadDecoder`, and so with decoding enabled under
`multiThreadDecoder`. -/
theorem total_size_overflows :
    pathSizes hugeFS [aJpg, aJpg] = 9223372036854775808 ∧
    (pipeline 1 true false hugeFS 3 [aJpg, aJpg]).outcome = Outcome.done ∧
    (pipeline 1 true false hugeFS 3 [aJpg, aJpg]).state.totalSize = -9223372036854775808 ∧
    (pipeline 1 true false hugeFS 3 [aJpg, aJpg]).state.totalSize ≠
      pathSizes hugeFS [aJpg, aJpg] ∧
    (pipeline 2 false false hugeFS 3 [aJpg, aJpg]).outcome = Outcome.done ∧
    (pipeline 2 false false hugeFS 3 [aJpg, aJpg]).state.totalSize = -9223372036854775808 ∧
    (pipeline 2 false false hugeFS 3 [aJpg, aJpg]).state.totalSize ≠
      pathSizes hugeFS [aJpg, aJpg] := by
  decide

/-- C3, amended.  When every path opens and stats and, with decoding
enabled, decodes, a run that finishes leaves `totalSize` equal to the sum of
the file sizes reduced to an `int64` (two complement wrap-around), hence
equal to the sum itself when the sum is below 2^63.  The value is the same
under `singleThreadDecoder`, under `multiThreadDecoder` with any batch size
of at least 1, under the decoder `main` selects, and with decoding enabled
or skipped.  The run finishes whenever decoding is skipped, output writing
is disabled, or every decoded frame is a `*image.YCbCr`. -/
theorem total_size (numThreads : Int) (nodecode nowrite : Bool) (fs : FS) (fuel : Nat)
    (names : List (List Byte)) (hN : 1 ≤ numThreads) (hfuel : names.length < fuel)
    (hok : ∀ p ∈ names, ∃ d, fs p = some d ∧ d.size ≠ none ∧
      (nodecode = false → d.image ≠ none)) :
    ((singleThreadDecoder nodecode nowrite true
        (State.init (singleThreadReader fs names).1)).outcome = Outcome.done →
      (singleThreadDecoder nodecode nowrite true
        (State.init (singleThreadReader fs names).1)).state.totalSize =
        wrap64 (pathSizes fs names)) ∧
    ((multiThreadDecoder numThreads nodecode nowrite true fuel
        (State.init (singleThreadReader fs names).1)).outcome = Outcome.done →
      (multiThreadDecoder numThreads nodecode nowrite true fuel
        (State.init (singleThreadReader fs names).1)).state.totalSize =
        wrap64 (pathSizes fs names)) ∧
    ((pipeline numThreads nodecode nowrite fs fuel names).outcome = Outcome.done →
      (pipeline numThreads nodecode nowrite fs fuel names).state.totalSize =
        wrap64 (pathSizes fs names) ∧
      (0 ≤ pathSizes fs names → pathSizes fs names < 2 ^ 63 →
        (pipeline numThreads nodecode nowrite fs fuel names).state.totalSize =
          pathSizes fs names)) ∧
    ((nodecode = true ∨ nowrite = true ∨
        ∀ p ∈ names, ∀ img, decodePath fs p = some img → isYCbCr img = true) →
      (singleThreadDecoder nodecode nowrite true
        (State.init (singleThreadReader fs names).1)).outcome = Outcome.done ∧
      (multiThreadDecoder numThreads nodecode nowrite true fuel
        (State.init (singleThreadReader fs names).1)).outcome = Outcome.done ∧
      (pipeline numThreads nodecode nowrite fs fuel names).outcome = Outcome.done) := by
  have hclosed : (readerLoop fs names 0).2 = true := by
    rw [reader_closed, List.all_eq_true]
    intro p hp
    obtain ⟨d, hd, _⟩ := hok p hp
    simp [hd]
  have hlen := reader_length_le fs names 0
  have hsum := reader_sizes fs names 0 hclosed
  have hsingle : (singleThreadDecoder nodecode nowrite true
      (State.init (readerLoop fs names 0).1)).outcome = Outcome.done →
      (singleThreadDecoder nodecode nowrite true
        (State.init (readerLoop fs names 0).1)).state.totalSize =
        wrap64 (pathSizes fs names) := by
    intro hdone
    cases hb : (readerLoop fs names 0).1.any (bad nodecode nowrite) with
    | true =>
      have := single_failed nodecode nowrite true _ (State.init (readerLoop fs names 0).1) hb
      exact absurd hdone (not_done_of_failed _ this)
    | false =>
      rw [(single_good nodecode nowrite _ (forall_not_bad nodecode nowrite _ hb)).2.2.2.2, hsum]
  have hmulti : (multiThreadDecoder numThreads nodecode nowrite true fuel
      (State.init (readerLoop fs names 0).1)).outcome = Outcome.done →
      (multiThreadDecoder numThreads nodecode nowrite true fuel
        (State.init (readerLoop fs names 0).1)).state.totalSize =
        wrap64 (pathSizes fs names) := by
    intro hdone
    cases hb : (readerLoop fs names 0).1.any (bad nodecode nowrite) with
    | true =>
      have := multi_failed numThreads nodecode nowrite hN fuel
        (State.init (readerLoop fs names 0).1) (by simp only [State.init]; omega) hb
      exact absurd hdone (not_done_of_failed _ this)
    | false =>
      rw [(multi_good numThreads nodecode nowrite fuel _ hN (by omega)
        (forall_not_bad nodecode nowrite _ hb)).2.2.2.2, hsum]
  have hpipe : pipeline numThreads nodecode nowrite fs fuel names =
      (if numThreads = 1 then
        singleThreadDecoder nodecode nowrite true (State.init (readerLoop fs names 0).1)
      else multiThreadDecoder numThreads nodecode nowrite true fuel
        (State.init (readerLoop fs names 0).1)) := by
    simp only [pipeline, singleThreadReader, hclosed, if_true, decoder]
  have hp : (pipeline numThreads nodecode nowrite fs fuel names).outcome = Outcome.done →
      (pipeline numThreads nodecode nowrite fs fuel names).state.totalSize =
        wrap64 (pathSizes fs names) := by
    rw [hpipe]
    by_cases h1 : numThreads = 1
    · simp only [h1, if_true]
      exact hsingle
    · simp only [h1, if_false]
      exact hmulti
  refine ⟨hsingle, hmulti, fun hdone => ⟨hp hdone, fun h0 h1 => ?_⟩, fun hsink => ?_⟩
  · rw [hp hdone]
    exact wrap64_of_range _ (by omega) h1
  · have hgood : ∀ p ∈ names, badPath fs nodecode nowrite p = false := by
      intro p hp
      refine badPath_false_of fs nodecode nowrite p (hok p hp) ?_
      rcases hsink with h | h | h
      · exact Or.inl h
      · exact Or.inr (Or.inl h)
      · exact Or.inr (Or.inr (h p hp))
    obtain ⟨_, _, hfiles⟩ := reader_good fs nodecode nowrite names 0 hgood
    refine ⟨(single_good nodecode nowrite _ hfiles).1,
      (multi_good numThreads nodecode nowrite fuel _ hN (by omega) hfiles).1, ?_⟩
    refine pipeline_done numThreads nodecode nowrite fs fuel names hN hfuel ?_
    rw [List.any_eq_false]
    intro p hp
    simp [hgood p hp]

/-- C3, amended, at the scenario: 700 + 800 + 900 bytes. -/
theorem total_size_witness :
    (1 : Int) ≤ 2 ∧ sampleNames.length < 4 ∧
    (∀ p ∈ sampleNames, ∃ d, sampleFS p = some d ∧ d.size ≠ none ∧
      (false = false → d.image ≠ none)) ∧
    pathSizes sampleFS sampleNames = 2400 ∧
    (pipeline 2 false false sampleFS 4 sampleNames).outcome = Outcome.done ∧
    (pipeline 2 false false sampleFS 4 sampleNames).state.totalSize =
      wrap64 (pathSizes sampleFS sampleNames) ∧
    (pipeline 2 false false sampleFS 4 sampleNames).state.totalSize = 2400 ∧
    (singleThreadDecoder false false true
        (State.init (singleThreadReader sampleFS sampleNames).1)).state.totalSize =
      wrap64 (pathSizes sampleFS sampleNames) :=
  have h : ∀ p ∈ sampleNames, ∃ d, sampleFS p = some d ∧ d.size ≠ none ∧
      (false = false → d.image ≠ none) := by
    intro p hp
    simp only [sampleNames, List.mem_cons, List.mem_singleton, List.not_mem_nil, or_false] at hp
    rcases hp with rfl | rfl | rfl
    · exact ⟨⟨some 700, some (flatFrame 1)⟩, by decide, by decide, by decide⟩
    · exact ⟨⟨some 800, some (flatFrame 2)⟩, by decide, by decide, by decide⟩
    · exact ⟨⟨some 900, some (flatFrame 3)⟩, by decide, by decide, by decide⟩
  ⟨by decide, by decide, h, by decide, by decide,
    ((total_size 2 false false sampleFS 4 sampleNames (by decide) (by decide) h).2.2.1
      (by decide)).1,
    ((total_size 2 false false sampleFS 4 sampleNames (by decide) (by decide) h).2.2.1
      (by decide)).2 (by decide) (by decide),
    (total_size 2 false false sampleFS 4 sampleNames (by decide) (by decide) h).1 (by decide)⟩


/-- C4, the sink.  With output writing enabled, on any sequence of YCbCr
frames the loop of `main` appends to the output stream the Y, Cb and Cr
planes of each frame, frame after frame, with nothing in between and
nothing else, without a panic; so the number of bytes written is the sum
over the frames of the three plane lengths. -/
theorem sink_writes_planes (planes : List (List Byte × List Byte × List Byte)) (o : Output) :
    sink false (planes.map fun p => Image.ycbcr p.1 p.2.1 p.2.2) o =
      { o with stdout := o.stdout ++ planes.flatMap fun p => p.1 ++ p.2.1 ++ p.2.2 } ∧
    (sink false (planes.map fun p => Image.ycbcr p.1 p.2.1 p.2.2) ⟨[], [], false⟩).stdout.length =
      (planes.map fun p => p.1.length + p.2.1.length + p.2.2.length).sum := by
  have key : ∀ (ps : List (List Byte × List Byte × List Byte)) (o : Output),
      sink false (ps.map fun p => Image.ycbcr p.1 p.2.1 p.2.2) o =
        { o with stdout := o.stdout ++ ps.flatMap fun p => p.1 ++ p.2.1 ++ p.2.2 } := by
    intro ps
    induction ps with
    | nil => intro o; simp [sink]
    | cons p rest ih =>
      intro o
      simp only [List.map_cons, sink, Bool.false_eq_true, if_false]
      rw [ih]
      simp [List.flatMap_cons, List.append_assoc]
  refine ⟨key planes o, ?_⟩
  rw [key]
  simp only [List.nil_append]
  induction planes with
  | nil => rfl
  | cons p rest ih =>
    simp only [List.flatMap_cons, List.length_append, List.map_cons, List.sum_cons, ih]

/-- C5 as stated fails: on `[a.jpg, gray.jpg, c.jpg]` with decoding and
writing enabled no path fails to open, to stat or to decode, and yet the
process ends in a failure: `main` panics on the frame of `gray.jpg`, which
is not a `*image.YCbCr`, and the pipeline does not complete. -/
theorem fail_fast_misses_panic :
    (¬ ∃ p ∈ [aJpg, grayJpg, cJpg],
      FailsOpen grayFS p ∨ FailsStat grayFS p ∨ (false = false ∧ FailsDecode grayFS p)) ∧
    (pipeline 1 false false grayFS 4 [aJpg, grayJpg, cJpg]).outcome = Outcome.panic ∧
    (pipeline 2 false false grayFS 4 [aJpg, grayJpg, cJpg]).outcome = Outcome.panic ∧
    (pipeline 1 false false grayFS 4 [aJpg, grayJpg, cJpg]).outcome ≠ Outcome.done ∧
    (sink false (frames (pipeline 1 false false grayFS 4
      [aJpg, grayJpg, cJpg]).state.trace) ⟨[], [], false⟩).panicked = true := by
  refine ⟨?_, by decide, by decide, by decide, by decide⟩
  rintro ⟨p, hp, h⟩
  have hb : failingPath grayFS false p = true := (failingPath_iff grayFS false p).2 h
  have hall : [aJpg, grayJpg, cJpg].any (failingPath grayFS false) = false := by decide
  rw [List.any_eq_false] at hall
  exact hall p hp hb

/-- C5, amended.  For every path list and every thread count of at least 1,
with a step budget above the number of paths, the process ends in a failure
(`log.Fatal` or the panic of `main`) exactly when some path fails to open,
fails to stat, with decoding enabled fails to decode, or with decoding and
output writing enabled decodes to a frame that is not a `*image.YCbCr`;
when no path does, the decoder closes `chw` and returns, and the loop of
`main` has taken every frame without a panic.  Nothing is retried or
skipped: the frames sent are always an initial segment of the frames of the
paths before the first path that fails to open, stat or decode.  A run ends
in `panic` exactly when the loop of `main` panics on the frames it was
sent. -/
theorem fail_fast (numThreads : Int) (nodecode nowrite : Bool) (fs : FS) (fuel : Nat)
    (names : List (List Byte)) (hN : 1 ≤ numThreads) (hfuel : names.length < fuel) :
    (Failed (pipeline numThreads nodecode nowrite fs fuel names) ↔
      ∃ p ∈ names, FailsOpen fs p ∨ FailsStat fs p ∨ (nodecode = false ∧ FailsDecode fs p) ∨
        (nodecode = false ∧ nowrite = false ∧ NotYCbCr fs p)) ∧
    ((¬ ∃ p ∈ names, FailsOpen fs p ∨ FailsStat fs p ∨ (nodecode = false ∧ FailsDecode fs p) ∨
        (nodecode = false ∧ nowrite = false ∧ NotYCbCr fs p)) →
      (pipeline numThreads nodecode nowrite fs fuel names).outcome = Outcome.done ∧
      (sink nowrite (frames (pipeline numThreads nodecode nowrite fs fuel names).state.trace)
        ⟨[], [], false⟩).panicked = false) ∧
    frames (pipeline numThreads nodecode nowrite fs fuel names).state.trace <+:
      (okPaths fs nodecode names).filterMap (decodePath fs) ∧
    ((pipeline numThreads nodecode nowrite fs fuel names).outcome = Outcome.panic ↔
      (sink nowrite (frames (pipeline numThreads nodecode nowrite fs fuel names).state.trace)
        ⟨[], [], false⟩).panicked = true) := by
  have hany : names.any (badPath fs nodecode nowrite) = true ↔
      ∃ p ∈ names, FailsOpen fs p ∨ FailsStat fs p ∨ (nodecode = false ∧ FailsDecode fs p) ∨
        (nodecode = false ∧ nowrite = false ∧ NotYCbCr fs p) := by
    rw [List.any_eq_true]
    constructor
    · rintro ⟨p, hp, h⟩
      exact ⟨p, hp, (badPath_iff fs nodecode nowrite p).1 h⟩
    · rintro ⟨p, hp, h⟩
      exact ⟨p, hp, (badPath_iff fs nodecode nowrite p).2 h⟩
  have hstate : (pipeline numThreads nodecode nowrite fs fuel names).state =
      (decoder numThreads nodecode nowrite (readerLoop fs names 0).2 fuel
        (readerLoop fs names 0).1).state := by
    simp only [pipeline, singleThreadReader]
    cases (readerLoop fs names 0).2 with
    | true => simp
    | false =>
      simp only [Bool.false_eq_true, if_false]
      split <;> rfl
  have hlen := reader_length_le fs names 0
  have hpre : frames (pipeline numThreads nodecode nowrite fs fuel names).state.trace <+:
      images nodecode (okPrefix nodecode (readerLoop fs names 0).1) := by
    rw [hstate]
    by_cases h1 : numThreads = 1
    · simp only [decoder, h1, if_true, singleThreadDecoder, single_frames, State.init, frames,
        List.nil_append]
      exact cut_prefix_self nowrite _
    · simp only [decoder, h1, if_false]
      obtain ⟨zs, g1, g2, g3, _⟩ := multi_run numThreads nodecode nowrite
        (readerLoop fs names 0).2 hN fuel (State.init (readerLoop fs names 0).1)
        (by simp only [State.init]; omega)
      rw [g1]
      simp only [State.init, frames, List.nil_append]
      exact (cut_prefix_self nowrite _).trans
        (images_mono nodecode _ _ (prefix_okPrefix nodecode zs _ g2 g3))
  have hpre2 : frames (pipeline numThreads nodecode nowrite fs fuel names).state.trace <+:
      (okPaths fs nodecode names).filterMap (decodePath fs) := by
    cases nodecode with
    | true =>
      have : frames (pipeline numThreads true nowrite fs fuel names).state.trace = [] := by
        simpa [images] using hpre
      rw [this]
      exact List.nil_prefix
    | false =>
      have h2 := reader_okPrefix fs names 0
      simp only [images, Bool.false_eq_true, if_false] at hpre
      rw [h2] at hpre
      exact hpre
  have hdone : names.any (badPath fs nodecode nowrite) = false →
      (pipeline numThreads nodecode nowrite fs fuel names).outcome = Outcome.done ∧
      (sink nowrite (frames (pipeline numThreads nodecode nowrite fs fuel names).state.trace)
        ⟨[], [], false⟩).panicked = false := by
    intro hb
    refine ⟨pipeline_done numThreads nodecode nowrite fs fuel names hN hfuel hb, ?_⟩
    obtain ⟨hclosed, _, hfiles⟩ := reader_good fs nodecode nowrite names 0
      (fun p hp => Bool.eq_false_iff.2 (List.any_eq_false.1 hb p hp))
    have hfr : frames (pipeline numThreads nodecode nowrite fs fuel names).state.trace =
        images nodecode (readerLoop fs names 0).1 := by
      simp only [pipeline, singleThreadReader, hclosed, if_true, decoder]
      by_cases h1 : numThreads = 1
      · simp only [h1, if_true]
        exact (single_good nodecode nowrite _ hfiles).2.1
      · simp only [h1, if_false]
        exact (multi_good numThreads nodecode nowrite fuel _ hN (by omega) hfiles).2.1
    rw [hfr, sink_no_panic nowrite _ _ (images_accepted nodecode nowrite _ hfiles)]
  refine ⟨?_, ?_, hpre2, pipeline_panic_iff numThreads nodecode nowrite fs fuel names hN hfuel⟩
  · rw [← hany]
    constructor
    · intro hf
      cases hb : names.any (badPath fs nodecode nowrite) with
      | true => rfl
      | false => exact absurd (hdone hb).1 (not_done_of_failed _ hf)
    · exact pipeline_failed numThreads nodecode nowrite fs fuel names hN hfuel
  · intro hno
    refine hdone ?_
    cases hb : names.any (badPath fs nodecode nowrite) with
    | true => exact absurd (hany.1 hb) hno
    | false => rfl

/-- C5, amended, at the scenario followed by a path that does not exist (the
run is fatal) and at the scenario itself (the run returns). -/
theorem fail_fast_witness :
    (1 : Int) ≤ 2 ∧ (sampleNames ++ [[100]]).length < 5 ∧ sampleNames.length < 4 ∧
    (pipeline 2 false false sampleFS 5 (sampleNames ++ [[100]])).outcome = Outcome.fatal ∧
    (Failed (pipeline 2 false false sampleFS 5 (sampleNames ++ [[100]])) ↔
      ∃ p ∈ sampleNames ++ [[100]],
        FailsOpen sampleFS p ∨ FailsStat sampleFS p ∨ (false = false ∧ FailsDecode sampleFS p) ∨
          (false = false ∧ false = false ∧ NotYCbCr sampleFS p)) ∧
    (pipeline 2 false false sampleFS 4 sampleNames).outcome = Outcome.done ∧
    frames (pipeline 2 false false sampleFS 4 sampleNames).state.trace <+:
      (okPaths sampleFS false sampleNames).filterMap (decodePath sampleFS) :=
  ⟨by decide, by decide, by decide, by decide,
    (fail_fast 2 false false sampleFS 5 (sampleNames ++ [[100]]) (by decide) (by decide)).1,
    by decide,
    (fail_fast 2 false false sampleFS 4 sampleNames (by decide) (by decide)).2.2.1⟩

/-- C6, the empty input.  On the empty path list the reader sends nothing
and closes `ch`; `singleThreadDecoder` and `multiThreadDecoder` (thread
count at least 1, one turn of budget) then send no frame, leave `totalSize`
at 0, close `chw` and return; so does the decoder `main` selects. -/
theorem empty_input (numThreads : Int) (nodecode nowrite : Bool) (fs : FS) (fuel : Nat)
    (hN : 1 ≤ numThreads) (hfuel : 0 < fuel) :
    singleThreadReader fs [] = ([], true) ∧
    singleThreadDecoder nodecode nowrite true (State.init []) =
      ⟨⟨[], [Event.closeChw], 0, []⟩, Outcome.done⟩ ∧
    multiThreadDecoder numThreads nodecode nowrite true fuel (State.init []) =
      ⟨⟨[], [Event.closeChw], 0, [([], true)]⟩, Outcome.done⟩ ∧
    frames (pipeline numThreads nodecode nowrite fs fuel []).state.trace = [] ∧
    (pipeline numThreads nodecode nowrite fs fuel []).state.trace = [Event.closeChw] ∧
    (pipeline numThreads nodecode nowrite fs fuel []).state.totalSize = 0 ∧
    (pipeline numThreads nodecode nowrite fs fuel []).outcome = Outcome.done := by
  have hk : 1 ≤ numThreads.toNat := by omega
  have hs : singleThreadDecoder nodecode nowrite true (State.init []) =
      ⟨⟨[], [Event.closeChw], 0, []⟩, Outcome.done⟩ := by
    simp [singleThreadDecoder, State.init, singleLoop]
  have hb : batchesOf numThreads.toNat fuel [] = [([], true)] := by
    cases fuel with
    | zero => omega
    | succ n =>
      have : 0 < numThreads.toNat := hk
      simp [batchesOf, this]
  have hm : multiThreadDecoder numThreads nodecode nowrite true fuel (State.init []) =
      ⟨⟨[], [Event.closeChw], 0, [([], true)]⟩, Outcome.done⟩ := by
    rw [multi_ok numThreads nodecode nowrite hN fuel (State.init []) (by simp [State.init])
      (by simpa [State.init] using hfuel)]
    cases nodecode <;> simp [State.init, hb, batchTrace, sends, accum]
  have hp : pipeline numThreads nodecode nowrite fs fuel [] =
      (if numThreads = 1 then singleThreadDecoder nodecode nowrite true (State.init [])
       else multiThreadDecoder numThreads nodecode nowrite true fuel (State.init [])) := by
    simp [pipeline, singleThreadReader, readerLoop, decoder]
  rw [hp, hs, hm]
  refine ⟨rfl, rfl, rfl, ?_, ?_, ?_, ?_⟩ <;> by_cases h1 : numThreads = 1 <;>
    simp [h1, frames]

/-- C6 with 4 threads, decoding and writing enabled. -/
theorem empty_input_witness :
    (1 : Int) ≤ 4 ∧ 0 < 1 ∧
    singleThreadReader sampleFS [] = ([], true) ∧
    singleThreadDecoder false false true (State.init []) =
      ⟨⟨[], [Event.closeChw], 0, []⟩, Outcome.done⟩ ∧
    multiThreadDecoder 4 false false true 1 (State.init []) =
      ⟨⟨[], [Event.closeChw], 0, [([], true)]⟩, Outcome.done⟩ ∧
    frames (pipeline 4 false false sampleFS 1 []).state.trace = [] ∧
    (pipeline 4 false false sampleFS 1 []).state.trace = [Event.closeChw] ∧
    (pipeline 4 false false sampleFS 1 []).state.totalSize = 0 ∧
    (pipeline 4 false false sampleFS 1 []).outcome = Outcome.done :=
  ⟨by decide, by decide, empty_input 4 false false sampleFS 1 (by decide) (by decide)⟩

/-- C7 as stated fails on a handle list with a failing handle: for
`[a, b, c]` with batch size 2 where `b` does not decode, the batch `[a, b]`
is formed, its decode task for `b` calls `log.Fatal`, and the final batch
`[c]` is never formed and `chw` never closed. -/
theorem batch_structure_fails_on_decode_error :
    (multiThreadDecoder 2 false false true 4
        (State.init [goodHandle 0 1, decodeErrHandle 1, goodHandle 2 3])).state.batches =
      [([goodHandle 0 1, decodeErrHandle 1], false)] ∧
    (multiThreadDecoder 2 false false true 4
        (State.init [goodHandle 0 1, decodeErrHandle 1, goodHandle 2 3])).outcome =
      Outcome.fatal ∧
    ¬ BatchStructure 2 [goodHandle 0 1, decodeErrHandle 1, goodHandle 2 3]
        (multiThreadDecoder 2 false false true 4
          (State.init [goodHandle 0 1, decodeErrHandle 1, goodHandle 2 3])) := by
  refine ⟨by decide, by decide, ?_⟩
  rintro ⟨bs, last, _, _, _, _, _, _, _, hdone⟩
  exact absurd hdone (by decide)

/-- C7, amended.  On a list of handles on which every `Stat` succeeds and,
with decoding enabled, every decode succeeds, with a `*image.YCbCr` frame
when output writing is enabled, for every batch size `N` of at least 1 and a
step budget above the number `L` of handles, `multiThreadDecoder` forms
exactly `L / N` non-final batches of `N` handles each, in draw order, then
one final batch of the `L mod N` handles left, then closes `chw` once, as
its last action, and returns; the batches concatenate to the input list. -/
theorem batch_structure (numThreads : Int) (nodecode nowrite : Bool) (fuel : Nat)
    (hs : List File) (hN : 1 ≤ numThreads) (hfuel : hs.length < fuel)
    (hgood : ∀ f ∈ hs, f.size ≠ none ∧ (nodecode = false →
      ∃ img, f.image = some img ∧ (nowrite = false → isYCbCr img = true))) :
    BatchStructure numThreads.toNat hs
      (multiThreadDecoder numThreads nodecode nowrite true fuel (State.init hs)) := by
  have hk : 1 ≤ numThreads.toNat := by omega
  have h : ∀ f ∈ hs, bad nodecode nowrite f = false :=
    fun f hf => not_bad_of nodecode nowrite f (hgood f hf).1 (hgood f hf).2
  obtain ⟨bs, last, h1, h2, h3, h4, h5⟩ := batchesOf_shape numThreads.toNat hk fuel hs hfuel
  refine ⟨bs, last, ?_, h2, h3, h4, h5, ?_, ?_, ?_⟩
  · rw [multi_ok numThreads nodecode nowrite hN fuel (State.init hs) h hfuel]
    simpa [State.init] using h1
  · rw [multi_ok numThreads nodecode nowrite hN fuel (State.init hs) h hfuel]
    simp only [State.init, List.nil_append, List.count_append]
    rw [List.count_eq_zero.2 (closeChw_not_mem_batches nodecode _)]
    rfl
  · rw [multi_ok numThreads nodecode nowrite hN fuel (State.init hs) h hfuel]
    simp [State.init]
  · exact (multi_good numThreads nodecode nowrite fuel hs hN hfuel h).1

/-- C7, amended, at the scenario: the handles of `[a.jpg, b.jpg, c.jpg]`
with batch size 2 and writing enabled form the batch of `a` and `b`, then
the final batch of `c`, and the three frames are sent in order. -/
theorem batch_structure_witness :
    (1 : Int) ≤ 2 ∧ (singleThreadReader sampleFS sampleNames).1.length < 4 ∧
    (∀ f ∈ (singleThreadReader sampleFS sampleNames).1,
      f.size ≠ none ∧ (false = false →
        ∃ img, f.image = some img ∧ (false = false → isYCbCr img = true))) ∧
    BatchStructure (2 : Int).toNat (singleThreadReader sampleFS sampleNames).1
      (multiThreadDecoder 2 false false true 4
        (State.init (singleThreadReader sampleFS sampleNames).1)) ∧
    (multiThreadDecoder 2 false false true 4
        (State.init (singleThreadReader sampleFS sampleNames).1)).state.batches =
      [([⟨0, some 700, some (flatFrame 1)⟩, ⟨1, some 800, some (flatFrame 2)⟩], false),
        ([⟨2, some 900, some (flatFrame 3)⟩], true)] ∧
    frames (multiThreadDecoder 2 false false true 4
        (State.init (singleThreadReader sampleFS sampleNames).1)).state.trace =
      [flatFrame 1, flatFrame 2, flatFrame 3] ∧
    frames (singleThreadDecoder false false true
        (State.init (singleThreadReader sampleFS sampleNames).1)).state.trace =
      [flatFrame 1, flatFrame 2, flatFrame 3] :=
  have h : ∀ f ∈ (singleThreadReader sampleFS sampleNames).1,
      f.size ≠ none ∧ (false = false →
        ∃ img, f.image = some img ∧ (false = false → isYCbCr img = true)) := by
    have hl : (singleThreadReader sampleFS sampleNames).1 =
        [⟨0, some 700, some (flatFrame 1)⟩, ⟨1, some 800, some (flatFrame 2)⟩,
          ⟨2, some 900, some (flatFrame 3)⟩] := by decide
    rw [hl]
    intro f hf
    simp only [List.mem_cons, List.mem_singleton, List.not_mem_nil, or_false] at hf
    rcases hf with rfl | rfl | rfl
    · exact ⟨by decide, fun _ => ⟨flatFrame 1, rfl, fun _ => rfl⟩⟩
    · exact ⟨by decide, fun _ => ⟨flatFrame 2, rfl, fun _ => rfl⟩⟩
    · exact ⟨by decide, fun _ => ⟨flatFrame 3, rfl, fun _ => rfl⟩⟩
  ⟨by decide, by decide, h,
    batch_structure 2 false false 4 (singleThreadReader sampleFS sampleNames).1
      (by decide) (by decide) h,
    by decide, by decide, by decide⟩

/-- C8 as stated fails: on `[a, gray, c]`, three handles that stat and
decode, with decoding and writing enabled, `main` panics on the frame of
`gray`, which is not a `*image.YCbCr`.  `multiThreadDecoder` with batch size
3 has drawn the three handles, the send of the frame of `c` is never
received, and none of the three handles is closed: the closes of a batch
come after all its sends.  `singleThreadDecoder` ends in the same panic and
does not return. -/
theorem handles_leak_on_gray_frame :
    (∀ f ∈ [goodHandle 0 1, grayHandle 1, goodHandle 2 3], f.size ≠ none ∧ f.image ≠ none) ∧
    (multiThreadDecoder 3 false false true 4
      (State.init [goodHandle 0 1, grayHandle 1, goodHandle 2 3])).outcome = Outcome.panic ∧
    draws (multiThreadDecoder 3 false false true 4
      (State.init [goodHandle 0 1, grayHandle 1, goodHandle 2 3])).state.trace =
      [goodHandle 0 1, grayHandle 1, goodHandle 2 3] ∧
    closes (multiThreadDecoder 3 false false true 4
      (State.init [goodHandle 0 1, grayHandle 1, goodHandle 2 3])).state.trace = [] ∧
    frames (multiThreadDecoder 3 false false true 4
      (State.init [goodHandle 0 1, grayHandle 1, goodHandle 2 3])).state.trace =
      [flatFrame 1, Image.other 0] ∧
    (singleThreadDecoder false false true
      (State.init [goodHandle 0 1, grayHandle 1, goodHandle 2 3])).outcome = Outcome.panic ∧
    goodHandle 2 3 ∉ closes (singleThreadDecoder false false true
      (State.init [goodHandle 0 1, grayHandle 1, goodHandle 2 3])).state.trace := by
  decide

/-- C8, amended.  On a list of handles on which every `Stat` succeeds and,
with decoding enabled, every decode succeeds, with a `*image.YCbCr` frame
when output writing is enabled, with decoding enabled or skipped and a batch
size of at least 1, both decoders return having drawn exactly the handles of
the list and closed exactly those, each as often as it was drawn: once when
the handles are distinct.  `singleThreadDecoder` closes a handle right after
the send of its frame; the trace of `multiThreadDecoder` is, batch after
batch, the draws of the batch, then the sends of all its frames, then the
closes of its handles, and `close(chw)` at the end. -/
theorem handles_released (numThreads : Int) (nodecode nowrite : Bool) (fuel : Nat)
    (hs : List File) (hN : 1 ≤ numThreads) (hfuel : hs.length < fuel)
    (hgood : ∀ f ∈ hs, f.size ≠ none ∧ (nodecode = false →
      ∃ img, f.image = some img ∧ (nowrite = false → isYCbCr img = true))) :
    ((singleThreadDecoder nodecode nowrite true (State.init hs)).outcome = Outcome.done ∧
      draws (singleThreadDecoder nodecode nowrite true (State.init hs)).state.trace = hs ∧
      closes (singleThreadDecoder nodecode nowrite true (State.init hs)).state.trace = hs ∧
      (singleThreadDecoder nodecode nowrite true (State.init hs)).state.trace =
        hs.flatMap (fun f => Event.draw f :: (sends nodecode [f] ++ [Event.closeFile f])) ++
          [Event.closeChw]) ∧
    ((multiThreadDecoder numThreads nodecode nowrite true fuel (State.init hs)).outcome =
        Outcome.done ∧
      draws (multiThreadDecoder numThreads nodecode nowrite true fuel
        (State.init hs)).state.trace = hs ∧
      closes (multiThreadDecoder numThreads nodecode nowrite true fuel
        (State.init hs)).state.trace = hs ∧
      (multiThreadDecoder numThreads nodecode nowrite true fuel (State.init hs)).state.trace =
        (multiThreadDecoder numThreads nodecode nowrite true fuel
            (State.init hs)).state.batches.flatMap
            (fun b => b.1.map Event.draw ++ sends nodecode b.1 ++ b.1.map Event.closeFile) ++
          [Event.closeChw]) ∧
    (hs.Nodup → ∀ h ∈ hs,
      (closes (singleThreadDecoder nodecode nowrite true (State.init hs)).state.trace).count h =
        1 ∧
      (closes (multiThreadDecoder numThreads nodecode nowrite true fuel
        (State.init hs)).state.trace).count h = 1) := by
  have h : ∀ f ∈ hs, bad nodecode nowrite f = false :=
    fun f hf => not_bad_of nodecode nowrite f (hgood f hf).1 (hgood f hf).2
  have hs1 := single_good nodecode nowrite hs h
  have hm1 := multi_good numThreads nodecode nowrite fuel hs hN hfuel h
  refine ⟨⟨hs1.1, hs1.2.2.1, hs1.2.2.2.1, ?_⟩, ⟨hm1.1, hm1.2.2.1, hm1.2.2.2.1, ?_⟩, ?_⟩
  · simp only [singleThreadDecoder, State.init, single_ok nodecode nowrite hs _ h,
      List.nil_append]
    rfl
  · rw [multi_ok numThreads nodecode nowrite hN fuel (State.init hs) h hfuel]
    simp only [State.init, List.nil_append]
    rfl
  · intro hnd x hx
    rw [hs1.2.2.2.1, hm1.2.2.2.1]
    exact ⟨List.count_eq_one_of_mem hnd hx, List.count_eq_one_of_mem hnd hx⟩

/-- C8, amended, at three handles, batch size 2, decoding and writing
enabled. -/
theorem handles_released_witness :
    (1 : Int) ≤ 2 ∧ [goodHandle 0 1, goodHandle 1 2, goodHandle 2 3].length < 4 ∧
    (∀ f ∈ [goodHandle 0 1, goodHandle 1 2, goodHandle 2 3],
      f.size ≠ none ∧ (false = false →
        ∃ img, f.image = some img ∧ (false = false → isYCbCr img = true))) ∧
    closes (multiThreadDecoder 2 false false true 4
      (State.init [goodHandle 0 1, goodHandle 1 2, goodHandle 2 3])).state.trace =
      [goodHandle 0 1, goodHandle 1 2, goodHandle 2 3] ∧
    closes (singleThreadDecoder false false true
      (State.init [goodHandle 0 1, goodHandle 1 2, goodHandle 2 3])).state.trace =
      [goodHandle 0 1, goodHandle 1 2, goodHandle 2 3] :=
  have h : ∀ f ∈ [goodHandle 0 1, goodHandle 1 2, goodHandle 2 3],
      f.size ≠ none ∧ (false = false →
        ∃ img, f.image = some img ∧ (false = false → isYCbCr img = true)) := by
    intro f hf
    simp only [List.mem_cons, List.mem_singleton, List.not_mem_nil, or_false] at hf
    rcases hf with rfl | rfl | rfl
    · exact ⟨by decide, fun _ => ⟨flatFrame 1, rfl, fun _ => rfl⟩⟩
    · exact ⟨by decide, fun _ => ⟨flatFrame 2, rfl, fun _ => rfl⟩⟩
    · exact ⟨by decide, fun _ => ⟨flatFrame 3, rfl, fun _ => rfl⟩⟩
  ⟨by decide, by decide, h,
    (handles_released 2 false false 4 [goodHandle 0 1, goodHandle 1 2, goodHandle 2 3]
      (by decide) (by decide) h).2.1.2.2.1,
    (handles_released 2 false false 4 [goodHandle 0 1, goodHandle 1 2, goodHandle 2 3]
      (by decide) (by decide) h).1.2.2.1⟩


/-- C9, path-list reading.  For every list of paths free of the newline
byte, `readStdin` on the paths each followed by a newline returns exactly
that list, in order.  Every input splits in one way into lines free of
newlines, each followed by a newline, and a rest free of newlines;
`readStdin` returns exactly those lines, so the bytes after the last newline
are not returned as a path. -/
theorem read_stdin_lines (paths : List (List Byte)) (h : ∀ p ∈ paths, (10 : Byte) ∉ p) :
    readStdin (paths.flatMap fun p => p ++ [10]) = some paths ∧
    (∀ input : List Byte, ∃ (lines : List (List Byte)) (t : List Byte),
      (∀ l ∈ lines, (10 : Byte) ∉ l) ∧ (10 : Byte) ∉ t ∧
      input = lines.flatMap (fun l => l ++ [10]) ++ t ∧ readStdin input = some lines) ∧
    (∀ (lines : List (List Byte)) (t : List Byte),
      (∀ l ∈ lines, (10 : Byte) ∉ l) → (10 : Byte) ∉ t →
      readStdin (lines.flatMap (fun l => l ++ [10]) ++ t) = some lines) := by
  refine ⟨?_, ?_, readStdin_lines⟩
  · have := readStdin_lines paths [] h (by simp)
    simpa using this
  · intro input
    obtain ⟨lines, t, h1, h2, h3⟩ := exists_lines input
    exact ⟨lines, t, h1, h2, h3, h3 ▸ readStdin_lines lines t h1 h2⟩

/-- C9 at the path list of the scenario, and at an input with an
unterminated last line. -/
theorem read_stdin_lines_witness :
    (∀ p ∈ sampleNames, (10 : Byte) ∉ p) ∧
    readStdin (sampleNames.flatMap fun p => p ++ [10]) = some sampleNames ∧
    readStdin (aJpg ++ [10] ++ bJpg) = some [aJpg] :=
  ⟨by decide, (read_stdin_lines sampleNames (by decide)).1, by decide⟩

/-- C10, negative thread counts.  A negative `numThreads` is not replaced by
the core count and does not select `singleThreadDecoder`, so `main` runs
`multiThreadDecoder` with it.  The collecting loop then draws nothing: every
turn of the outer loop forms an empty batch with `needsClose` false and goes
round again with the channel, the trace and `totalSize` unchanged.  After
any number of turns the decoder is still running: it has recorded no size,
sent no frame, closed no handle and not closed `chw`. -/
theorem negative_thread_count_spins (numThreads : Int) (numCPU : Nat)
    (nodecode nowrite closed : Bool) (s : State) (fuel : Nat) (hN : numThreads < 0) :
    threadCount numThreads numCPU = numThreads ∧
    (∀ hs, decoder numThreads nodecode nowrite closed fuel hs =
      multiThreadDecoder numThreads nodecode nowrite closed fuel (State.init hs)) ∧
    cycle numThreads nodecode nowrite closed s =
      (none, { s with batches := s.batches ++ [([], false)] }) ∧
    multiThreadDecoder numThreads nodecode nowrite closed fuel s =
      ⟨{ s with batches := s.batches ++ List.replicate fuel ([], false) },
        Outcome.outOfFuel⟩ := by
  have hk : numThreads.toNat = 0 := by omega
  have hc : ∀ s : State, cycle numThreads nodecode nowrite closed s =
      (none, { s with batches := s.batches ++ [([], false)] }) := by
    intro s
    cases nodecode <;> simp [cycle, hk, collect, finish, emitAll]
  refine ⟨?_, ?_, hc s, ?_⟩
  · have : numThreads ≠ 0 := by omega
    simp [threadCount, this]
  · intro hs
    have : numThreads ≠ 1 := by omega
    simp [decoder, this]
  · induction fuel generalizing s with
    | zero => simp [multiThreadDecoder]
    | succ n ih =>
      simp only [multiThreadDecoder, hc s]
      rw [ih]
      simp [List.replicate_succ, List.append_assoc]

/-- C10 at thread count -3 on the handles of the scenario, after 5 turns. -/
theorem negative_thread_count_spins_witness :
    (-3 : Int) < 0 ∧
    multiThreadDecoder (-3) false false true 5
        (State.init [goodHandle 0 1, goodHandle 1 2, goodHandle 2 3]) =
      ⟨{ State.init [goodHandle 0 1, goodHandle 1 2, goodHandle 2 3] with
          batches := List.replicate 5 ([], false) }, Outcome.outOfFuel⟩ :=
  ⟨by decide,
    (negative_thread_count_spins (-3) 8 false false true
      (State.init [goodHandle 0 1, goodHandle 1 2, goodHandle 2 3]) 5 (by decide)).2.2.2⟩


end GoJpegStream
